import Mathlib

/-!
# 8-bit CPU assembler (`compiler/compiler.cpp`)

A shallow embedding of the assembler and proofs of its specified behaviour.

Modelling conventions
* A C++ `std::string` is a `List Char` (`Str`); the input stream is the list of
  lines that successive `getline` calls return.
* `lineCounter` is an `int`: it is modelled as an `Int` kept in the 32-bit
  signed range, and `lineCounter++` is `wrap32 (lineCounter + 1)`, which wraps
  from `2^31 - 1` to `-2^31` as the compiled program does (the C++ standard
  leaves signed overflow undefined). The line number of a diagnostic is the
  value of that `int`. The loop counter of the `for` loop runs up to
  `num_arguments`, at most 2, and is a natural number.
* A `char` is a `Char`: the characters the program tests for (`;`, space, tab,
  `0`, `1`) are ASCII, and the length of a string is only consulted for
  strings made of `0` and `1`.
* The diagnostics written to `cerr` together with the `return` code of `main`
  are recorded as a value of `Err`.
* The two nested reading loops of `main` are `nextArg` (inner `while`),
  `argLoop` (the `for`) and `mainLoop` (outer `while`); the outer loop is
  driven by a fuel counter, and `assemble` supplies enough fuel.
-/

namespace Assembler

/-- A `std::string`, as its sequence of characters. -/
abbrev Str := List Char

/-- The constant `WORD_SIZE` (`#define WORD_SIZE 8`). -/
def WORD_SIZE : Nat := 8

/-- The constant `MIN_BINARY_LINES` (`#define MIN_BINARY_LINES 128`). -/
def MIN_BINARY_LINES : Nat := 128

/-- The `struct InstructionInfo`: opcode text and number of arguments. -/
structure InstructionInfo where
  opcode : Str
  num_arguments : Nat
deriving DecidableEq, Repr

/-- The global `mnemonics` map, as its initializer list (the keys are pairwise
distinct, so lookup by key in the list is lookup in the `std::map`). -/
def mnemonics : List (Str × InstructionInfo) :=
  [ ("INC".toList,  ⟨"00000001".toList, 1⟩),
    ("DEC".toList,  ⟨"00000010".toList, 1⟩),
    ("NOT".toList,  ⟨"00000011".toList, 1⟩),
    ("JMP".toList,  ⟨"00000100".toList, 1⟩),
    ("ADD".toList,  ⟨"00010000".toList, 2⟩),
    ("SUB".toList,  ⟨"00100000".toList, 2⟩),
    ("MUL".toList,  ⟨"00110000".toList, 2⟩),
    ("DIV".toList,  ⟨"01000000".toList, 2⟩),
    ("MOD".toList,  ⟨"01010000".toList, 2⟩),
    ("AND".toList,  ⟨"01100000".toList, 2⟩),
    ("OR".toList,   ⟨"01110000".toList, 2⟩),
    ("XOR".toList,  ⟨"10000000".toList, 2⟩),
    ("NAND".toList, ⟨"10010000".toList, 2⟩),
    ("NOR".toList,  ⟨"10100000".toList, 2⟩),
    ("XNOR".toList, ⟨"10110000".toList, 2⟩),
    ("COMP".toList, ⟨"11000000".toList, 2⟩) ]

/-- The call `mnemonics.count(str)`: 1 when the key is present, 0 otherwise. -/
def mnemonicsCount (str : Str) : Nat :=
  (mnemonics.filter (fun e => e.1 == str)).length

/-- The call `mnemonics.at(str)`; `none` stands for the `std::out_of_range` exception. -/
def mnemonicsAt (str : Str) : Option InstructionInfo :=
  mnemonics.lookup str

/-- The call `std::string::find(c)`: index of the first occurrence, `none` for `npos`. -/
def find : Str → Char → Option Nat
  | [], _ => none
  | x :: xs, c => if x == c then some 0 else (find xs c).map (· + 1)

/-- Function `removeComments`: erase everything from the first `;` on. -/
def removeComments (line : Str) : Str :=
  match find line ';' with
  | some comment_pos => line.take comment_pos
  | none => line

/-- Function `removeSpaces`: two erase-remove passes, first `' '`, then `'\t'`. -/
def removeSpaces (line : Str) : Str :=
  (line.filter (fun c => c != ' ')).filter (fun c => c != '\t')

/-- The call `str.find_first_not_of("01")`: index of the first character that is
neither `0` nor `1`, `none` for `npos`. -/
def findFirstNotOf01 : Str → Option Nat
  | [] => none
  | x :: xs => if x == '0' || x == '1' then (findFirstNotOf01 xs).map (· + 1) else some 0

/-- Function `isBinary`: non-empty and made of `0`/`1` only. -/
def isBinary (str : Str) : Bool :=
  !str.isEmpty && (findFirstNotOf01 str).isNone

/-- Function `isCommand`: the string is a key of `mnemonics`. -/
def isCommand (str : Str) : Bool :=
  decide (mnemonicsCount str > 0)

/-- Function `padArgument`: left-pad with `'0'` up to `WORD_SIZE`. -/
def padArgument (binary : Str) : Str :=
  if binary.length ≥ WORD_SIZE then binary
  else
    let missingZeros := WORD_SIZE - binary.length
    List.replicate missingZeros '0' ++ binary

/-- A value reduced to the range of a 32-bit signed `int`, `-2^31 ≤ · < 2^31`,
modulo `2^32`. -/
def wrap32 (x : Int) : Int :=
  (x + 2147483648) % 4294967296 - 2147483648

/-- What a failing run reports: the fields of the diagnostic on `cerr`; the
constructor determines the return code of `main`. -/
inductive Err where
  /-- Exit `return 3`: "Error [Line n]: Unknown command 'tok'." -/
  | UnknownCommand (line : Int) (token : Str)
  /-- Exit `return 4`: "End of file reached while expecting an argument for command 'm'." -/
  | UnexpectedEndOfInput (mnemonic : Str)
  /-- Exit `return 5`: "Error [Line n]: Invalid argument 'tok' for command 'm'." -/
  | InvalidArgument (line : Int) (mnemonic : Str) (token : Str)
  /-- Thrown by `mnemonics.at` (never happens after the `isCommand` guard). -/
  | OutOfRange
deriving DecidableEq, Repr

/-- The process exit status of a failing run (`134` is the status of the
abort after an uncaught exception). -/
def exitCode : Err → Nat
  | .UnknownCommand _ _ => 3
  | .UnexpectedEndOfInput _ => 4
  | .InvalidArgument _ _ _ => 5
  | .OutOfRange => 134

/-- The inner `while (getline(inputFile, argBuffer))` loop: read lines, counting
them, until one is non-empty after `removeComments` and `removeSpaces`.
Returns the cleaned argument, the rest of the stream and the line counter;
`none` is `argFound == false`. -/
def nextArg : List Str → Int → Option (Str × List Str × Int)
  | [], _ => none
  | raw :: input, lineCounter =>
    let lineCounter := wrap32 (lineCounter + 1)
    let argBuffer := removeSpaces (removeComments raw)
    if !argBuffer.isEmpty then some (argBuffer, input, lineCounter)
    else nextArg input lineCounter

/-- The `for (int i = 0; i < instruction.num_arguments; ++i)` loop, by the
number of iterations still to run. Returns the stream, line counter and
`binaryLines` after the loop, or the error of the `return 4` / `return 5`. -/
def argLoop : Nat → Str → List Str → Int → List Str →
    Except Err (List Str × Int × List Str)
  | 0, _, input, lineCounter, binaryLines => .ok (input, lineCounter, binaryLines)
  | n + 1, lineBuffer, input, lineCounter, binaryLines =>
    match nextArg input lineCounter with
    | none => .error (.UnexpectedEndOfInput lineBuffer)
    | some (argBuffer, input', lineCounter') =>
      if !isBinary argBuffer || decide (argBuffer.length > WORD_SIZE) then
        .error (.InvalidArgument lineCounter' lineBuffer argBuffer)
      else
        argLoop n lineBuffer input' lineCounter' (binaryLines ++ [padArgument argBuffer])

/-- The outer `while (getline(inputFile, lineBuffer))` loop of `main`.
`none` only when the fuel runs out. -/
def mainLoop : Nat → List Str → Int → List Str → Option (Except Err (List Str))
  | 0, _, _, _ => none
  | _ + 1, [], _, binaryLines => some (.ok binaryLines)
  | fuel + 1, raw :: input, lineCounter, binaryLines =>
    let lineCounter := wrap32 (lineCounter + 1)
    let lineBuffer := removeSpaces (removeComments raw)
    if lineBuffer.isEmpty then mainLoop fuel input lineCounter binaryLines
    else if !isCommand lineBuffer then
      some (.error (.UnknownCommand lineCounter lineBuffer))
    else
      match mnemonicsAt lineBuffer with
      | none => some (.error .OutOfRange)
      | some instruction =>
        match argLoop instruction.num_arguments lineBuffer input lineCounter
            (binaryLines ++ [instruction.opcode]) with
        | .error e => some (.error e)
        | .ok (input', lineCounter', binaryLines') =>
          mainLoop fuel input' lineCounter' binaryLines'

/-- The parsing part of `main` (lines 106-157) on the lines of the input file:
`lineCounter = 0`, `binaryLines` empty, one unit of fuel per line plus one for
the final failing `getline`. -/
def assemble (lines : List Str) : Option (Except Err (List Str)) :=
  mainLoop (lines.length + 1) lines 0 []

/-- The two output loops of `main` (lines 159-167): every element of
`binaryLines`, then `string(WORD_SIZE, '0')` for `i` from `binaryLines.size()`
up to `MIN_BINARY_LINES`. -/
def emit (binaryLines : List Str) : List Str :=
  binaryLines ++
    List.replicate (MIN_BINARY_LINES - binaryLines.length) (List.replicate WORD_SIZE '0')

/-- The observable result of a run: exit status and the lines written to the
output file. -/
structure RunResult where
  status : Nat
  output : List Str
deriving DecidableEq, Repr

/-- Function `main` after both files were opened, on the lines of the input file. -/
def run (lines : List Str) : Option RunResult :=
  match assemble lines with
  | none => none
  | some (.error e) => some ⟨exitCode e, []⟩
  | some (.ok binaryLines) => some ⟨0, emit binaryLines⟩

/-! ## The driver as the state machine of the specification (§4.3)

These definitions follow the text of the specification, not the code: the
catalog table of §4.2, the sanitizer of §4.1 and the two-state machine of §4.3.
-/

/-- The catalog table of specification §4.2: mnemonic, opcode, arity. -/
def specCatalog : List (Str × Str × Nat) :=
  [ ("INC".toList, "00000001".toList, 1), ("DEC".toList, "00000010".toList, 1),
    ("NOT".toList, "00000011".toList, 1), ("JMP".toList, "00000100".toList, 1),
    ("ADD".toList, "00010000".toList, 2), ("SUB".toList, "00100000".toList, 2),
    ("MUL".toList, "00110000".toList, 2), ("DIV".toList, "01000000".toList, 2),
    ("MOD".toList, "01010000".toList, 2), ("AND".toList, "01100000".toList, 2),
    ("OR".toList, "01110000".toList, 2), ("XOR".toList, "10000000".toList, 2),
    ("NAND".toList, "10010000".toList, 2), ("NOR".toList, "10100000".toList, 2),
    ("XNOR".toList, "10110000".toList, 2), ("COMP".toList, "11000000".toList, 2) ]

/-- Specification §4.2, `spec_of`: the (opcode, arity) of a token, defined only
for known mnemonics. -/
def spec_of (token : Str) : Option (Str × Nat) :=
  specCatalog.lookup token

/-- Specification §4.2, `is_known`: membership in the catalog. -/
def is_known (token : Str) : Bool :=
  (spec_of token).isSome

/-- Specification §4.1: drop everything from the first `;` on, then drop every
space and tab. -/
def specSanitize (line : Str) : Str :=
  (line.takeWhile (fun c => c != ';')).filter (fun c => c != ' ' && c != '\t')

/-- Specification §4.3: an argument consists only of `0`/`1` and has length at
most 8. -/
def specValidArgument (a : Str) : Bool :=
  a.all (fun c => c == '0' || c == '1') && decide (a.length ≤ 8)

/-- Specification §4.3: left-pad with `'0'` to exactly 8 characters. -/
def specPad (a : Str) : Str :=
  List.replicate (8 - a.length) '0' ++ a

/-- The two logical states of specification §4.3; `ExpectArgument` also
remembers the instruction that awaits the arguments, which its failures name. -/
inductive SpecState where
  | ExpectInstruction
  | ExpectArgument (mnemonic : Str) (remaining : Nat)
deriving DecidableEq, Repr

/-- The state after one more argument was accepted: `remaining` is decremented,
and when it reaches 0 the machine returns to `ExpectInstruction`. -/
def specAfterArgument (mnemonic : Str) (remaining : Nat) : SpecState :=
  if remaining - 1 = 0 then .ExpectInstruction
  else .ExpectArgument mnemonic (remaining - 1)

/-- The state after an opcode was emitted: `ExpectArgument arity` when the
arity is positive, `ExpectInstruction` otherwise. -/
def specAfterOpcode (mnemonic : Str) (arity : Nat) : SpecState :=
  if arity > 0 then .ExpectArgument mnemonic arity else .ExpectInstruction

/-- The state machine of specification §4.3 run over the raw lines: `consumed`
is the number of source lines already read (the current line has the 1-based
number `consumed + 1`), `program` the words emitted so far. Blank lines are
skipped in every state; end of input is normal completion in
`ExpectInstruction` and `UnexpectedEndOfInput` in `ExpectArgument`. -/
def specRun : SpecState → Nat → List Str → List Str → Except Err (List Str)
  | .ExpectInstruction, _, [], program => .ok program
  | .ExpectArgument mnemonic _, _, [], _ => .error (.UnexpectedEndOfInput mnemonic)
  | state, consumed, raw :: rest, program =>
    let line := specSanitize raw
    if line.isEmpty then specRun state (consumed + 1) rest program
    else
      match state with
      | .ExpectInstruction =>
        match spec_of line with
        | none => .error (.UnknownCommand ((consumed + 1 : Nat) : Int) line)
        | some (opcode, arity) =>
          specRun (specAfterOpcode line arity) (consumed + 1) rest (program ++ [opcode])
      | .ExpectArgument mnemonic remaining =>
        if specValidArgument line then
          specRun (specAfterArgument mnemonic remaining) (consumed + 1) rest
            (program ++ [specPad line])
        else .error (.InvalidArgument ((consumed + 1 : Nat) : Int) mnemonic line)

/-- The specified assembler: the machine started in `ExpectInstruction` with an
empty program. -/
def specAssemble (lines : List Str) : Except Err (List Str) :=
  specRun .ExpectInstruction 0 lines []

/-! ## Shapes of input used in the statements -/

/-- A raw line that is empty after `removeComments` and `removeSpaces`
(an empty, whitespace-only or comment-only line). -/
def BlankLine (raw : Str) : Prop :=
  removeSpaces (removeComments raw) = []

/-- A text that consists only of the characters `0` and `1` and has length at
most 8. -/
def BinaryUpTo8 (a : Str) : Prop :=
  (∀ c ∈ a, c = '0' ∨ c = '1') ∧ a.length ≤ 8

instance (a : Str) : Decidable (BinaryUpTo8 a) := by
  unfold BinaryUpTo8
  infer_instance

/-- A raw line that holds a valid argument: after `removeComments` and
`removeSpaces` it is non-empty, binary and at most 8 characters long. -/
def ArgLine (raw : Str) : Prop :=
  removeSpaces (removeComments raw) ≠ [] ∧ BinaryUpTo8 (removeSpaces (removeComments raw))

instance (raw : Str) : Decidable (BlankLine raw) := by
  unfold BlankLine
  infer_instance

instance (raw : Str) : Decidable (ArgLine raw) := by
  unfold ArgLine
  infer_instance

/-- Lines `block` made of exactly `j` valid argument lines and otherwise only
blank lines, in any arrangement. -/
inductive ArgLines : Nat → List Str → Prop where
  | nil : ArgLines 0 []
  | blank {j : Nat} {raw : Str} {rest : List Str} :
      BlankLine raw → ArgLines j rest → ArgLines j (raw :: rest)
  | arg {j : Nat} {raw : Str} {rest : List Str} :
      ArgLine raw → ArgLines j rest → ArgLines (j + 1) (raw :: rest)

/-- Lines made only of blank lines and complete valid instructions: a line
holding a catalog mnemonic followed by lines that contain all its valid
arguments (with blank lines allowed anywhere). -/
inductive Complete : List Str → Prop where
  | nil : Complete []
  | blank {raw : Str} {rest : List Str} :
      BlankLine raw → Complete rest → Complete (raw :: rest)
  | instr {raw : Str} {info : InstructionInfo} {args rest : List Str} :
      mnemonicsAt (removeSpaces (removeComments raw)) = some info →
      ArgLines info.num_arguments args → Complete rest →
      Complete (raw :: (args ++ rest))

/-- An encoded word: exactly 8 characters, each `0` or `1`. -/
def IsWord (w : Str) : Prop :=
  w.length = 8 ∧ ∀ c ∈ w, c = '0' ∨ c = '1'

/-- The words that the argument lines of `block` contribute: the padded text of
every line that is not blank. -/
def argWords (block : List Str) : List Str :=
  ((block.map (fun raw => removeSpaces (removeComments raw))).filter
    (fun a => !a.isEmpty)).map padArgument

/-! ## Vocabulary for the relational statements -/

/-- The cleaned text (after `removeComments` and `removeSpaces`) of the lines
that are not blank, in order. -/
def nonBlank (lines : List Str) : List Str :=
  (lines.map (fun raw => removeSpaces (removeComments raw))).filter (fun a => !a.isEmpty)

/-- The raw lines that are not blank, in order: what is left of the input when
every blank line is deleted. Two inputs differ only by inserted or deleted
blank lines exactly when they agree after this deletion. -/
def withoutBlankLines (lines : List Str) : List Str :=
  lines.filter (fun raw => !(removeSpaces (removeComments raw)).isEmpty)

/-- An error as the program prints it: its line number reduced to the range of
the `int` that holds it. -/
def wrapLine : Err → Err
  | .UnknownCommand line token => .UnknownCommand (wrap32 line) token
  | .UnexpectedEndOfInput mnemonic => .UnexpectedEndOfInput mnemonic
  | .InvalidArgument line mnemonic token => .InvalidArgument (wrap32 line) mnemonic token
  | .OutOfRange => .OutOfRange

/-- The line number of an error, when it carries one, is greater than `lo` and
at most `hi`. -/
def LineWithin (lo hi : Nat) : Err → Prop
  | .UnknownCommand line _ => (lo : Int) < line ∧ line ≤ (hi : Int)
  | .UnexpectedEndOfInput _ => True
  | .InvalidArgument line _ _ => (lo : Int) < line ∧ line ≤ (hi : Int)
  | .OutOfRange => True

/-- An error with its line number forgotten (set to 0): the error kind, the
mnemonic and the offending token are kept. -/
def dropLine : Err → Err
  | .UnknownCommand _ token => .UnknownCommand 0 token
  | .UnexpectedEndOfInput mnemonic => .UnexpectedEndOfInput mnemonic
  | .InvalidArgument _ mnemonic token => .InvalidArgument 0 mnemonic token
  | .OutOfRange => .OutOfRange

/-- An error with its reported line number moved `k` lines further down. -/
def shiftLine (k : Nat) : Err → Err
  | .UnknownCommand line token => .UnknownCommand (line + k) token
  | .UnexpectedEndOfInput mnemonic => .UnexpectedEndOfInput mnemonic
  | .InvalidArgument line mnemonic token => .InvalidArgument (line + k) mnemonic token
  | .OutOfRange => .OutOfRange

/-- The unsigned integer that a string of `0`/`1` denotes in base 2, most
significant digit first. -/
def binValue (s : Str) : Nat :=
  s.foldl (fun acc c => 2 * acc + (if c = '1' then 1 else 0)) 0

/-- A result moved behind an earlier part of the input: the words `Q` emitted
by the earlier part come first, and a reported line number is `k` larger. -/
def relocate (k : Nat) (Q : List Str) : Except Err (List Str) → Except Err (List Str)
  | .ok P => .ok (Q ++ P)
  | .error e => .error (shiftLine k e)

/-- The word that a cleaned, non-blank line stands for: the opcode of the table
when the line is a mnemonic, the padded text otherwise. It depends on the line
alone. -/
def wordOf (line : Str) : Str :=
  match mnemonicsAt line with
  | some instruction => instruction.opcode
  | none => padArgument line

/-- The way the driver consumes cleaned non-blank lines, one word per line:
`Consumed n lines words` says that with `n` arguments still awaited the lines
`lines` are consumed to the end of the input and contribute `words`. With no
argument awaited a line is consumed as a mnemonic and contributes its opcode;
otherwise it is consumed as an argument, must be a binary literal of at most 8
characters, and contributes `padArgument` of itself. -/
inductive Consumed : Nat → List Str → List Str → Prop where
  | done : Consumed 0 [] []
  | mnemonic {line : Str} {info : InstructionInfo} {rest words : List Str} :
      mnemonicsAt line = some info → Consumed info.num_arguments rest words →
      Consumed 0 (line :: rest) (info.opcode :: words)
  | argument {n : Nat} {line : Str} {rest words : List Str} :
      line ≠ [] → BinaryUpTo8 line → Consumed n rest words →
      Consumed (n + 1) (line :: rest) (padArgument line :: words)

/-- The padded arguments that stand before the first mnemonic of `lines`. -/
def leadingArgs (lines : List Str) : List Str :=
  (lines.takeWhile (fun line => !isCommand line)).map padArgument

/-- The instructions of a list of cleaned non-blank lines: every mnemonic,
in order, with the lines that follow it up to the next mnemonic as its
arguments, each padded to 8 characters. -/
def instructionsOf : List Str → List (Str × List Str)
  | [] => []
  | line :: rest =>
    if isCommand line then (line, leadingArgs rest) :: instructionsOf rest
    else instructionsOf rest

/-- The words of one instruction: the opcode of its mnemonic, then its padded
arguments. -/
def encodeInstruction (ins : Str × List Str) : List Str :=
  wordOf ins.1 :: ins.2

/-! ## Basic facts about the helper functions -/

theorem find_take_eq_takeWhile (s : Str) (c : Char) :
    (match find s c with
      | some pos => s.take pos
      | none => s) = s.takeWhile (fun x => x != c) := by
  induction s with
  | nil => rfl
  | cons x xs ih =>
    by_cases h : x = c
    · subst h
      simp [find, List.takeWhile]
    · have hb : (x == c) = false := by simpa using h
      simp only [find, hb, List.takeWhile_cons, bne, Bool.not_false]
      cases hf : find xs c with
      | none =>
        rw [hf] at ih
        simp only [Option.map_none', Bool.false_eq_true, ↓reduceIte]
        exact congrArg (x :: ·) ih
      | some pos =>
        rw [hf] at ih
        simp only [Option.map_some', Bool.false_eq_true, ↓reduceIte, List.take_succ_cons]
        exact congrArg (x :: ·) ih

theorem removeComments_eq_takeWhile (s : Str) :
    removeComments s = s.takeWhile (fun x => x != ';') :=
  find_take_eq_takeWhile s ';'

theorem removeSpaces_eq_filter (s : Str) :
    removeSpaces s = s.filter (fun c => c != ' ' && c != '\t') := by
  unfold removeSpaces
  rw [List.filter_filter]
  congr 1
  funext c
  exact Bool.and_comm _ _

theorem sanitize_eq_spec (s : Str) :
    removeSpaces (removeComments s) = specSanitize s := by
  rw [removeSpaces_eq_filter, removeComments_eq_takeWhile]
  rfl

theorem findFirstNotOf01_isNone (s : Str) :
    (findFirstNotOf01 s).isNone = s.all (fun c => c == '0' || c == '1') := by
  induction s with
  | nil => rfl
  | cons x xs ih =>
    cases hx : (x == '0' || x == '1') with
    | true => simp only [findFirstNotOf01, hx, List.all_cons, Bool.true_and, ← ih]
              cases findFirstNotOf01 xs <;> rfl
    | false => simp [findFirstNotOf01, hx]

theorem isBinary_eq (s : Str) :
    isBinary s = (!s.isEmpty && s.all (fun c => c == '0' || c == '1')) := by
  unfold isBinary
  rw [findFirstNotOf01_isNone]

theorem padArgument_eq_spec (a : Str) : padArgument a = specPad a := by
  unfold padArgument specPad WORD_SIZE
  by_cases h : a.length ≥ 8
  · have h0 : 8 - a.length = 0 := by omega
    simp [h, h0]
  · simp [h]

theorem argument_check_eq_spec (a : Str) (hne : a.isEmpty = false) :
    (!isBinary a || decide (a.length > WORD_SIZE)) = !specValidArgument a := by
  unfold specValidArgument WORD_SIZE
  rw [isBinary_eq, hne]
  cases a.all (fun c => c == '0' || c == '1') <;>
    by_cases h : a.length ≤ 8 <;> simp [h]
  all_goals omega

theorem count_pos_iff_lookup {β : Type} (l : List (Str × β)) (t : Str) :
    decide ((l.filter (fun e => e.1 == t)).length > 0) = (l.lookup t).isSome := by
  induction l with
  | nil => rfl
  | cons e es ih =>
    obtain ⟨k, v⟩ := e
    by_cases h : t = k
    · subst h
      simp [List.lookup, List.filter]
    · have h1 : (t == k) = false := by simpa using h
      have h2 : (k == t) = false := by simpa using fun hh => h hh.symm
      simp only [List.lookup, List.filter, h1, h2]
      exact ih

theorem lookup_map_snd {β γ : Type} (f : β → γ) (l : List (Str × β)) (t : Str) :
    (l.map (fun e => (e.1, f e.2))).lookup t = (l.lookup t).map f := by
  induction l with
  | nil => rfl
  | cons e es ih =>
    obtain ⟨k, v⟩ := e
    cases h : (t == k) with
    | true => simp [List.lookup, h]
    | false => simpa [List.lookup, h] using ih

theorem specCatalog_eq_mnemonics :
    specCatalog = mnemonics.map (fun e => (e.1, (e.2.opcode, e.2.num_arguments))) := by
  rfl

theorem spec_of_eq (t : Str) :
    spec_of t = (mnemonicsAt t).map (fun i => (i.opcode, i.num_arguments)) := by
  unfold spec_of mnemonicsAt
  rw [specCatalog_eq_mnemonics]
  exact lookup_map_snd (fun i : InstructionInfo => (i.opcode, i.num_arguments)) mnemonics t

theorem isCommand_eq_isSome (t : Str) : isCommand t = (mnemonicsAt t).isSome :=
  count_pos_iff_lookup mnemonics t

theorem isCommand_eq_is_known (t : Str) : isCommand t = is_known t := by
  rw [isCommand_eq_isSome, is_known, spec_of_eq]
  cases mnemonicsAt t <;> rfl

/-! ## The nested loops refine the state machine -/

theorem specAfterArgument_succ (m : Str) (n : Nat) :
    specAfterArgument m (n + 1) = specAfterOpcode m n := by
  unfold specAfterArgument specAfterOpcode
  cases n <;> simp

theorem wrap32_succ (x : Int) : wrap32 (wrap32 x + 1) = wrap32 (x + 1) := by
  unfold wrap32
  omega

theorem wrap32_add (x : Int) (k : Int) : wrap32 (wrap32 x + k) = wrap32 (x + k) := by
  unfold wrap32
  omega

theorem wrap32_cast_succ (lc : Nat) :
    wrap32 (wrap32 (lc : Int) + 1) = wrap32 ((lc + 1 : Nat) : Int) := by
  rw [wrap32_succ]
  push_cast
  rfl

theorem wrap32_of_range (x : Int) (h0 : -2147483648 ≤ x) (h1 : x < 2147483648) :
    wrap32 x = x := by
  unfold wrap32
  omega

theorem nextArg_none_spec (m : Str) (n : Nat) (bl : List Str) :
    ∀ (input : List Str) (c : Int) (lc : Nat), nextArg input c = none →
      specRun (.ExpectArgument m n) lc input bl = .error (.UnexpectedEndOfInput m) := by
  intro input
  induction input with
  | nil => intro c lc _; rfl
  | cons raw rest ih =>
    intro c lc h
    unfold nextArg at h
    simp only [sanitize_eq_spec] at h
    cases hb : (specSanitize raw).isEmpty with
    | false => simp [hb] at h
    | true =>
      simp only [hb, Bool.not_true, Bool.false_eq_true, ↓reduceIte] at h
      simp only [specRun, hb, ↓reduceIte]
      exact ih _ _ h

theorem nextArg_some_spec (m : Str) (n : Nat) (bl : List Str) :
    ∀ (input : List Str) (lc : Nat) (a : Str) (input' : List Str) (c' : Int),
      nextArg input (wrap32 (lc : Int)) = some (a, input', c') →
      ∃ lc' : Nat, c' = wrap32 (lc' : Int) ∧
      a.isEmpty = false ∧ input'.length < input.length ∧
      specRun (.ExpectArgument m n) lc input bl =
        (if specValidArgument a then
          specRun (specAfterArgument m n) lc' input' (bl ++ [specPad a])
        else .error (.InvalidArgument (lc' : Int) m a)) := by
  intro input
  induction input with
  | nil => intro lc a input' c' h; simp [nextArg] at h
  | cons raw rest ih =>
    intro lc a input' c' h
    unfold nextArg at h
    simp only [sanitize_eq_spec, wrap32_cast_succ] at h
    cases hb : (specSanitize raw).isEmpty with
    | false =>
      simp only [hb, Bool.not_false, ↓reduceIte, Option.some.injEq, Prod.mk.injEq] at h
      obtain ⟨ha, hi, hl⟩ := h
      subst ha hi hl
      refine ⟨lc + 1, rfl, hb, Nat.lt_succ_self _, ?_⟩
      simp only [specRun, hb, Bool.false_eq_true, ↓reduceIte]
    | true =>
      simp only [hb, Bool.not_true, Bool.false_eq_true, ↓reduceIte] at h
      obtain ⟨lc', h0, h1, h2, h3⟩ := ih _ _ _ _ h
      refine ⟨lc', h0, h1, Nat.lt_succ_of_lt h2, ?_⟩
      simp only [specRun, hb, ↓reduceIte]
      exact h3

theorem argLoop_error_spec (m : Str) :
    ∀ (n : Nat) (input : List Str) (lc : Nat) (bl : List Str) (e : Err),
      argLoop n m input (wrap32 (lc : Int)) bl = .error e →
      (specRun (specAfterOpcode m n) lc input bl).mapError wrapLine = .error e := by
  intro n
  induction n with
  | zero => intro input lc bl e h; simp [argLoop] at h
  | succ n ih =>
    intro input lc bl e h
    have hst : specAfterOpcode m (n + 1) = .ExpectArgument m (n + 1) := by simp [specAfterOpcode]
    rw [hst]
    unfold argLoop at h
    cases hn : nextArg input (wrap32 (lc : Int)) with
    | none =>
      rw [hn] at h
      simp only [Except.error.injEq] at h
      rw [nextArg_none_spec m (n + 1) bl input _ lc hn, ← h]
      rfl
    | some r =>
      obtain ⟨a, input', c'⟩ := r
      rw [hn] at h
      obtain ⟨lc', hc', hne, _, hrun⟩ := nextArg_some_spec m (n + 1) bl input lc a input' c' hn
      rw [hc'] at h
      rw [hrun, specAfterArgument_succ]
      simp only [argument_check_eq_spec a hne] at h
      cases hv : specValidArgument a with
      | false =>
        simp only [hv, Bool.not_false, ↓reduceIte, Except.error.injEq] at h
        simp [← h, Except.mapError, wrapLine]
      | true =>
        simp only [hv, Bool.not_true, Bool.false_eq_true, ↓reduceIte, padArgument_eq_spec] at h
        simp only [↓reduceIte]
        exact ih _ _ _ _ h

theorem argLoop_ok_spec (m : Str) :
    ∀ (n : Nat) (input : List Str) (lc : Nat) (bl : List Str)
      (input' : List Str) (c' : Int) (bl' : List Str),
      argLoop n m input (wrap32 (lc : Int)) bl = .ok (input', c', bl') →
      ∃ lc' : Nat, c' = wrap32 (lc' : Int) ∧
      input'.length ≤ input.length ∧
      specRun (specAfterOpcode m n) lc input bl = specRun .ExpectInstruction lc' input' bl' := by
  intro n
  induction n with
  | zero =>
    intro input lc bl input' c' bl' h
    simp only [argLoop, Except.ok.injEq, Prod.mk.injEq] at h
    obtain ⟨h1, h2, h3⟩ := h
    subst h1 h2 h3
    exact ⟨lc, rfl, Nat.le_refl _, by simp [specAfterOpcode]⟩
  | succ n ih =>
    intro input lc bl input' c' bl' h
    have hst : specAfterOpcode m (n + 1) = .ExpectArgument m (n + 1) := by simp [specAfterOpcode]
    rw [hst]
    unfold argLoop at h
    cases hn : nextArg input (wrap32 (lc : Int)) with
    | none =>
      rw [hn] at h
      simp at h
    | some r =>
      obtain ⟨a, input1, c1⟩ := r
      rw [hn] at h
      obtain ⟨lc1, hc1, hne, hlen, hrun⟩ :=
        nextArg_some_spec m (n + 1) bl input lc a input1 c1 hn
      rw [hc1] at h
      rw [hrun, specAfterArgument_succ]
      simp only [argument_check_eq_spec a hne] at h
      cases hv : specValidArgument a with
      | false =>
        simp [hv] at h
      | true =>
        simp only [hv, Bool.not_true, Bool.false_eq_true, ↓reduceIte, padArgument_eq_spec] at h
        simp only [↓reduceIte]
        obtain ⟨lc', h0, h1, h2⟩ := ih _ _ _ _ _ _ h
        exact ⟨lc', h0, by omega, h2⟩

theorem mainLoop_eq_specRun :
    ∀ (fuel : Nat) (input : List Str) (lc : Nat) (bl : List Str),
      input.length < fuel →
      mainLoop fuel input (wrap32 (lc : Int)) bl =
        some ((specRun .ExpectInstruction lc input bl).mapError wrapLine) := by
  intro fuel
  induction fuel with
  | zero => intro input lc bl h; omega
  | succ fuel ih =>
    intro input lc bl hlen
    cases input with
    | nil => rfl
    | cons raw rest =>
      have hrest : rest.length < fuel := by simpa using hlen
      simp only [mainLoop, sanitize_eq_spec, specRun, wrap32_cast_succ]
      cases hb : (specSanitize raw).isEmpty with
      | true =>
        simp only [↓reduceIte]
        exact ih _ _ _ hrest
      | false =>
        simp only [Bool.false_eq_true, ↓reduceIte]
        rw [isCommand_eq_isSome, spec_of_eq]
        cases hat : mnemonicsAt (specSanitize raw) with
        | none => simp [Except.mapError, wrapLine]
        | some instruction =>
          simp only [Option.isSome_some, Bool.not_true, Bool.false_eq_true, ↓reduceIte,
            Option.map_some']
          cases hargs : argLoop instruction.num_arguments (specSanitize raw) rest
              (wrap32 ((lc + 1 : Nat) : Int)) (bl ++ [instruction.opcode]) with
          | error e =>
            simp only
            rw [argLoop_error_spec _ _ _ _ _ _ hargs]
          | ok r =>
            obtain ⟨input', c', bl'⟩ := r
            obtain ⟨lc', h0, h1, h2⟩ := argLoop_ok_spec _ _ _ _ _ _ _ _ hargs
            rw [h0]
            simp only
            rw [h2]
            exact ih _ _ _ (by omega)

theorem wrap32_zero : wrap32 ((0 : Nat) : Int) = 0 := by
  decide

theorem assemble_eq_spec (lines : List Str) :
    assemble lines = some ((specAssemble lines).mapError wrapLine) := by
  have h := mainLoop_eq_specRun (lines.length + 1) lines 0 [] (Nat.lt_succ_self _)
  rw [wrap32_zero] at h
  exact h

theorem assemble_of_spec_ok (lines P : List Str) (h : specAssemble lines = .ok P) :
    assemble lines = some (.ok P) := by
  rw [assemble_eq_spec, h]
  rfl

theorem assemble_of_spec_error (lines : List Str) (e : Err)
    (h : specAssemble lines = .error e) :
    assemble lines = some (.error (wrapLine e)) := by
  rw [assemble_eq_spec, h]
  rfl

theorem spec_of_assemble_ok (lines P : List Str) (h : assemble lines = some (.ok P)) :
    specAssemble lines = .ok P := by
  rw [assemble_eq_spec, Option.some.injEq] at h
  cases hs : specAssemble lines with
  | ok Q => rw [hs] at h; simpa [Except.mapError] using h
  | error e => rw [hs] at h; simp [Except.mapError] at h

theorem spec_of_assemble_error (lines : List Str) (e : Err)
    (h : assemble lines = some (.error e)) :
    ∃ e0, specAssemble lines = .error e0 ∧ wrapLine e0 = e := by
  rw [assemble_eq_spec, Option.some.injEq] at h
  cases hs : specAssemble lines with
  | ok Q => rw [hs] at h; simp [Except.mapError] at h
  | error e0 => rw [hs] at h; exact ⟨e0, rfl, by simpa [Except.mapError] using h⟩

/-! ## Running the machine over blocks of lines -/

theorem binaryUpTo8_iff (a : Str) : BinaryUpTo8 a ↔ specValidArgument a = true := by
  unfold BinaryUpTo8 specValidArgument
  simp [List.all_eq_true]

theorem isEmpty_eq_true_iff (a : Str) : a.isEmpty = true ↔ a = [] := by
  cases a <;> simp

theorem isEmpty_eq_false_iff (a : Str) : a.isEmpty = false ↔ a ≠ [] := by
  cases a <;> simp

theorem specRun_blank (st : SpecState) (lc : Nat) (raw : Str) (rest bl : List Str)
    (h : removeSpaces (removeComments raw) = []) :
    specRun st lc (raw :: rest) bl = specRun st (lc + 1) rest bl := by
  rw [sanitize_eq_spec] at h
  cases st <;> simp [specRun, h]

theorem specRun_unknown (lc : Nat) (raw : Str) (rest bl : List Str)
    (hne : removeSpaces (removeComments raw) ≠ [])
    (hunk : isCommand (removeSpaces (removeComments raw)) = false) :
    specRun .ExpectInstruction lc (raw :: rest) bl =
      .error (.UnknownCommand ((lc + 1 : Nat) : Int) (removeSpaces (removeComments raw))) := by
  rw [sanitize_eq_spec] at hne hunk ⊢
  have hb : (specSanitize raw).isEmpty = false := (isEmpty_eq_false_iff _).2 hne
  rw [isCommand_eq_is_known, is_known] at hunk
  cases hs : spec_of (specSanitize raw) with
  | none => simp [specRun, hb, hs]
  | some v => simp [hs] at hunk

theorem specRun_mnemonic (lc : Nat) (raw : Str) (info : InstructionInfo) (rest bl : List Str)
    (hat : mnemonicsAt (removeSpaces (removeComments raw)) = some info) :
    specRun .ExpectInstruction lc (raw :: rest) bl =
      specRun (specAfterOpcode (removeSpaces (removeComments raw)) info.num_arguments) (lc + 1) rest
        (bl ++ [info.opcode]) := by
  rw [sanitize_eq_spec] at hat ⊢
  have hb : (specSanitize raw).isEmpty = false := by
    cases hs : specSanitize raw with
    | nil => rw [hs] at hat; simp [mnemonicsAt, mnemonics, List.lookup] at hat
    | cons c cs => rfl
  have hs : spec_of (specSanitize raw) = some (info.opcode, info.num_arguments) := by
    rw [spec_of_eq, hat]; rfl
  simp [specRun, hb, hs]

theorem specRun_argument (m : Str) (n lc : Nat) (raw : Str) (rest bl : List Str)
    (hne : removeSpaces (removeComments raw) ≠ []) :
    specRun (.ExpectArgument m (n + 1)) lc (raw :: rest) bl =
      if BinaryUpTo8 (removeSpaces (removeComments raw)) then
        specRun (specAfterOpcode m n) (lc + 1) rest
          (bl ++ [padArgument (removeSpaces (removeComments raw))])
      else .error (.InvalidArgument ((lc + 1 : Nat) : Int) m
        (removeSpaces (removeComments raw))) := by
  rw [sanitize_eq_spec] at hne ⊢
  have hb : (specSanitize raw).isEmpty = false := (isEmpty_eq_false_iff _).2 hne
  simp only [specRun, hb, Bool.false_eq_true, ↓reduceIte, specAfterArgument_succ,
    padArgument_eq_spec, binaryUpTo8_iff]

theorem argWords_blank (raw : Str) (rest : List Str)
    (h : removeSpaces (removeComments raw) = []) : argWords (raw :: rest) = argWords rest := by
  simp [argWords, h]

theorem argWords_arg (raw : Str) (rest : List Str)
    (h : removeSpaces (removeComments raw) ≠ []) :
    argWords (raw :: rest) = padArgument (removeSpaces (removeComments raw)) :: argWords rest := by
  have hb : (removeSpaces (removeComments raw)).isEmpty = false := (isEmpty_eq_false_iff _).2 h
  simp [argWords, hb]

theorem specRun_argLines (m : Str) {j : Nat} {block : List Str} (hblock : ArgLines j block) :
    ∀ (n : Nat), j ≤ n → ∀ (lc : Nat) (bl rest : List Str),
      specRun (specAfterOpcode m n) lc (block ++ rest) bl =
        specRun (specAfterOpcode m (n - j)) (lc + block.length) rest (bl ++ argWords block) := by
  induction hblock with
  | nil => intro n _ lc bl rest; simp [argWords]
  | @blank j raw tail hraw _ ih =>
    intro n hn lc bl rest
    rw [List.cons_append, specRun_blank _ _ _ _ _ hraw, ih n hn, argWords_blank _ _ hraw]
    simp only [List.length_cons]
    congr 1
    omega
  | @arg j raw tail hraw _ ih =>
    intro n hn lc bl rest
    obtain ⟨n', rfl⟩ : ∃ n', n = n' + 1 := ⟨n - 1, by omega⟩
    have hst : specAfterOpcode m (n' + 1) = .ExpectArgument m (n' + 1) := by simp [specAfterOpcode]
    rw [List.cons_append, hst, specRun_argument _ _ _ _ _ _ hraw.1, if_pos hraw.2,
      ih n' (by omega), argWords_arg _ _ hraw.1]
    simp only [List.length_cons, List.append_assoc, List.singleton_append]
    have h1 : n' + 1 - (j + 1) = n' - j := by omega
    have h2 : lc + 1 + tail.length = lc + (tail.length + 1) := by omega
    rw [h1, h2]

theorem specRun_complete {pre : List Str} (hpre : Complete pre) :
    ∃ P : List Str, ∀ (lc : Nat) (bl rest : List Str),
      specRun .ExpectInstruction lc (pre ++ rest) bl =
        specRun .ExpectInstruction (lc + pre.length) rest (bl ++ P) := by
  induction hpre with
  | nil => exact ⟨[], fun lc bl rest => by simp⟩
  | @blank raw tail hraw _ ih =>
    obtain ⟨P, hP⟩ := ih
    refine ⟨P, fun lc bl rest => ?_⟩
    rw [List.cons_append, specRun_blank _ _ _ _ _ hraw, hP]
    simp only [List.length_cons]
    congr 1
    omega
  | @instr raw info args tail hat hargs _ ih =>
    obtain ⟨P, hP⟩ := ih
    refine ⟨info.opcode :: (argWords args ++ P), fun lc bl rest => ?_⟩
    have hst : specAfterOpcode (removeSpaces (removeComments raw)) 0 = .ExpectInstruction := by
      simp [specAfterOpcode]
    rw [List.cons_append, specRun_mnemonic _ _ _ _ _ hat, List.append_assoc,
      specRun_argLines _ hargs _ (Nat.le_refl _), Nat.sub_self, hst, hP]
    simp only [List.length_cons, List.length_append, List.append_assoc, List.singleton_append]
    have h2 : lc + 1 + args.length + tail.length = lc + (args.length + tail.length + 1) := by
      omega
    rw [h2]
    rfl

theorem specRun_lineWithin :
    ∀ (input : List Str) (st : SpecState) (lc : Nat) (bl : List Str) (e : Err),
      specRun st lc input bl = .error e → LineWithin lc (lc + input.length) e := by
  intro input
  induction input with
  | nil =>
    intro st lc bl e h
    cases st with
    | ExpectInstruction => simp [specRun] at h
    | ExpectArgument m n =>
      simp only [specRun, Except.error.injEq] at h
      subst h
      trivial
  | cons raw rest ih =>
    intro st lc bl e h
    have hmono : ∀ e', LineWithin (lc + 1) (lc + 1 + rest.length) e' →
        LineWithin lc (lc + (raw :: rest).length) e' := by
      intro e' he'
      cases e' <;> simp only [LineWithin, List.length_cons] at he' ⊢ <;>
        first | trivial | (push_cast at he' ⊢; omega)
    cases hb : (specSanitize raw).isEmpty with
    | true =>
      exact hmono e (ih st (lc + 1) bl e (by cases st <;> simpa [specRun, hb] using h))
    | false =>
      cases st with
      | ExpectInstruction =>
        cases hs : spec_of (specSanitize raw) with
        | none =>
          simp only [specRun, hb, hs, Bool.false_eq_true, ↓reduceIte,
            Except.error.injEq] at h
          subst h
          simp only [LineWithin, List.length_cons]
          push_cast
          omega
        | some v =>
          simp only [specRun, hb, hs, Bool.false_eq_true, ↓reduceIte] at h
          exact hmono e (ih _ _ _ _ h)
      | ExpectArgument m' n =>
        cases hv : specValidArgument (specSanitize raw) with
        | true =>
          simp only [specRun, hb, hv, Bool.false_eq_true, ↓reduceIte] at h
          exact hmono e (ih _ _ _ _ h)
        | false =>
          simp only [specRun, hb, hv, Bool.false_eq_true, ↓reduceIte,
            Except.error.injEq] at h
          subst h
          simp only [LineWithin, List.length_cons]
          push_cast
          omega

theorem wrap32_cast_of_lt (k : Nat) (h : k < 2147483648) : wrap32 (k : Int) = (k : Int) := by
  apply wrap32_of_range <;> omega

theorem wrapLine_of_lineWithin (lo hi : Nat) (e : Err) (h : LineWithin lo hi e)
    (hhi : hi < 2147483648) : wrapLine e = e := by
  cases e with
  | UnknownCommand line token =>
    simp only [LineWithin] at h
    simp only [wrapLine]
    rw [wrap32_of_range line (by omega) (by omega)]
  | InvalidArgument line m token =>
    simp only [LineWithin] at h
    simp only [wrapLine]
    rw [wrap32_of_range line (by omega) (by omega)]
  | UnexpectedEndOfInput m => rfl
  | OutOfRange => rfl

theorem assemble_eq_spec_of_short (lines : List Str) (h : lines.length < 2147483648) :
    assemble lines = some (specAssemble lines) := by
  rw [assemble_eq_spec]
  cases hs : specAssemble lines with
  | ok P => rfl
  | error e =>
    have hw := specRun_lineWithin lines _ 0 [] e hs
    rw [Nat.zero_add] at hw
    simp only [Except.mapError]
    rw [wrapLine_of_lineWithin 0 lines.length e hw h]

/-! ## Facts about the table and about binary literals -/

theorem mnemonics_entries :
    ∀ e ∈ mnemonics,
      removeSpaces (removeComments e.1) = e.1 ∧ mnemonicsAt e.1 = some e.2 ∧
      1 ≤ e.2.num_arguments ∧ e.2.opcode.length = 8 ∧
      ∀ c ∈ e.2.opcode, c = '0' ∨ c = '1' := by
  decide

theorem binary_takeWhile (a : Str) (h : ∀ c ∈ a, c = '0' ∨ c = '1') :
    a.takeWhile (fun x => x != ';') = a := by
  induction a with
  | nil => rfl
  | cons x xs ih =>
    have hx : (x != ';') = true := by
      rcases h x (List.mem_cons_self _ _) with rfl | rfl <;> decide
    rw [List.takeWhile_cons, hx]
    simp only [↓reduceIte]
    rw [ih (fun c hc => h c (List.mem_cons_of_mem _ hc))]

theorem binary_filter (a : Str) (h : ∀ c ∈ a, c = '0' ∨ c = '1') :
    a.filter (fun c => c != ' ' && c != '\t') = a := by
  rw [List.filter_eq_self]
  intro c hc
  rcases h c hc with rfl | rfl <;> decide

theorem binary_sanitize (a : Str) (h : ∀ c ∈ a, c = '0' ∨ c = '1') :
    removeSpaces (removeComments a) = a := by
  rw [removeSpaces_eq_filter, removeComments_eq_takeWhile, binary_takeWhile a h,
    binary_filter a h]

theorem padArgument_of_length_eq (a : Str) (h : a.length = 8) : padArgument a = a := by
  simp [padArgument, WORD_SIZE, h]

theorem words_argLines (args : List Str)
    (hargs : ∀ a ∈ args, a.length = 8 ∧ ∀ c ∈ a, c = '0' ∨ c = '1') :
    ArgLines args.length args ∧ argWords args = args := by
  induction args with
  | nil => exact ⟨.nil, rfl⟩
  | cons a rest ih =>
    obtain ⟨hlen, hbin⟩ := hargs a (List.mem_cons_self _ _)
    obtain ⟨h1, h2⟩ := ih (fun b hb => hargs b (List.mem_cons_of_mem _ hb))
    have hs := binary_sanitize a hbin
    have hne : removeSpaces (removeComments a) ≠ [] := by
      rw [hs]; intro h0; rw [h0] at hlen; simp at hlen
    have harg : ArgLine a := ⟨hne, by rw [hs]; exact ⟨hbin, by omega⟩⟩
    refine ⟨.arg harg h1, ?_⟩
    rw [argWords_arg a rest hne, hs, padArgument_of_length_eq a hlen, h2]

theorem takeWhile_before_first (pre post : Str) (c : Char) (h : c ∉ pre) :
    (pre ++ c :: post).takeWhile (fun x => x != c) = pre := by
  induction pre with
  | nil => simp [List.takeWhile]
  | cons x xs ih =>
    have hx : (x != c) = true := by
      simp only [bne_iff_ne, ne_eq]
      intro hxc
      exact h (hxc ▸ List.mem_cons_self _ _)
    rw [List.cons_append, List.takeWhile_cons, hx]
    simp only [↓reduceIte]
    rw [ih (fun hc => h (List.mem_cons_of_mem _ hc))]

theorem lookup_isSome_iff_mem_keys {β : Type} (l : List (Str × β)) (t : Str) :
    (l.lookup t).isSome = true ↔ t ∈ l.map Prod.fst := by
  induction l with
  | nil => simp [List.lookup]
  | cons e es ih =>
    obtain ⟨k, v⟩ := e
    by_cases h : t = k
    · subst h
      have h1 : (t == t) = true := beq_self_eq_true t
      simp only [List.lookup, h1, List.map_cons, List.mem_cons, true_or, Option.isSome_some]
    · have h1 : (t == k) = false := by simpa using h
      simp only [List.lookup, h1, List.map_cons, List.mem_cons, h, false_or]
      exact ih

/-! ## Reaching a given point of the input -/

theorem nextArg_skip_blanks (blanks : List Str) (raw : Str) (tail : List Str)
    (hblanks : ∀ b ∈ blanks, BlankLine b) (hne : removeSpaces (removeComments raw) ≠ []) :
    ∀ c : Int, nextArg (blanks ++ raw :: tail) c =
      some (removeSpaces (removeComments raw), tail,
        wrap32 (c + ((blanks.length + 1 : Nat) : Int))) := by
  induction blanks with
  | nil =>
    intro c
    have hb : (removeSpaces (removeComments raw)).isEmpty = false :=
      (isEmpty_eq_false_iff _).2 hne
    simp [nextArg, hb]
  | cons b bs ih =>
    intro c
    have hb : removeSpaces (removeComments b) = [] := hblanks b (List.mem_cons_self _ _)
    rw [List.cons_append, nextArg]
    simp only [hb, List.isEmpty_nil, Bool.not_true, Bool.false_eq_true, ↓reduceIte]
    rw [ih (fun x hx => hblanks x (List.mem_cons_of_mem _ hx)), wrap32_add]
    simp only [List.length_cons]
    congr 4
    push_cast
    omega

theorem specAssemble_reach {pre given : List Str} {j : Nat} (mline : Str)
    (info : InstructionInfo) (rest : List Str) (hpre : Complete pre)
    (hinfo : mnemonicsAt (removeSpaces (removeComments mline)) = some info)
    (hgiven : ArgLines j given) (hj : j < info.num_arguments) :
    ∃ (P : List Str) (n : Nat),
      specAssemble (pre ++ mline :: (given ++ rest)) =
        specRun (.ExpectArgument (removeSpaces (removeComments mline)) (n + 1))
          (pre.length + 1 + given.length) rest P := by
  obtain ⟨P, hP⟩ := specRun_complete hpre
  obtain ⟨n, hn⟩ : ∃ n, info.num_arguments - j = n + 1 :=
    ⟨info.num_arguments - j - 1, by omega⟩
  refine ⟨[] ++ P ++ [info.opcode] ++ argWords given, n, ?_⟩
  rw [specAssemble, hP, specRun_mnemonic _ _ _ _ _ hinfo,
    specRun_argLines _ hgiven _ (Nat.le_of_lt hj), hn, Nat.zero_add]
  simp [specAfterOpcode]

theorem run_of_assemble_error (lines : List Str) (e : Err)
    (h : assemble lines = some (.error e)) : run lines = some ⟨exitCode e, []⟩ := by
  simp [run, h]

theorem assemble_unknown_command (pre post : List Str) (raw : Str) (hpre : Complete pre)
    (hne : removeSpaces (removeComments raw) ≠ [])
    (hunk : isCommand (removeSpaces (removeComments raw)) = false) :
    assemble (pre ++ raw :: post) =
      some (.error (.UnknownCommand (wrap32 ((pre.length + 1 : Nat) : Int))
        (removeSpaces (removeComments raw)))) := by
  obtain ⟨P, hP⟩ := specRun_complete hpre
  have h : specAssemble (pre ++ raw :: post) =
      .error (.UnknownCommand ((pre.length + 1 : Nat) : Int)
        (removeSpaces (removeComments raw))) := by
    rw [specAssemble, hP, specRun_unknown _ _ _ _ hne hunk, Nat.zero_add]
  exact assemble_of_spec_error _ _ h

theorem assemble_unexpected_end (pre tail : List Str) (raw : Str) (info : InstructionInfo)
    (j : Nat) (hpre : Complete pre)
    (hinfo : mnemonicsAt (removeSpaces (removeComments raw)) = some info)
    (htail : ArgLines j tail) (hj : j < info.num_arguments) :
    assemble (pre ++ raw :: tail) =
      some (.error (.UnexpectedEndOfInput (removeSpaces (removeComments raw)))) := by
  obtain ⟨P, n, h⟩ := specAssemble_reach raw info [] hpre hinfo htail hj
  rw [List.append_nil] at h
  have h' : specAssemble (pre ++ raw :: tail) =
      .error (.UnexpectedEndOfInput (removeSpaces (removeComments raw))) := by
    rw [h]; rfl
  exact assemble_of_spec_error _ _ h'

theorem assemble_invalid_argument (pre given tail : List Str) (mline raw : Str)
    (info : InstructionInfo) (j : Nat) (hpre : Complete pre)
    (hinfo : mnemonicsAt (removeSpaces (removeComments mline)) = some info)
    (hgiven : ArgLines j given) (hj : j < info.num_arguments)
    (hne : removeSpaces (removeComments raw) ≠ [])
    (hbad : ¬ BinaryUpTo8 (removeSpaces (removeComments raw))) :
    assemble (pre ++ mline :: (given ++ raw :: tail)) =
      some (.error (.InvalidArgument (wrap32 ((pre.length + 1 + given.length + 1 : Nat) : Int))
        (removeSpaces (removeComments mline)) (removeSpaces (removeComments raw)))) := by
  obtain ⟨P, n, h⟩ := specAssemble_reach mline info (raw :: tail) hpre hinfo hgiven hj
  have h' : specAssemble (pre ++ mline :: (given ++ raw :: tail)) =
      .error (.InvalidArgument ((pre.length + 1 + given.length + 1 : Nat) : Int)
        (removeSpaces (removeComments mline)) (removeSpaces (removeComments raw))) := by
    rw [h, specRun_argument _ _ _ _ _ _ hne, if_neg hbad]
  exact assemble_of_spec_error _ _ h'

theorem lookup_some_mem {β : Type} (l : List (Str × β)) (t : Str) (v : β)
    (h : l.lookup t = some v) : (t, v) ∈ l := by
  induction l with
  | nil => simp [List.lookup] at h
  | cons e es ih =>
    obtain ⟨k, w⟩ := e
    by_cases hk : t = k
    · subst hk
      have h1 : (t == t) = true := beq_self_eq_true t
      simp only [List.lookup, h1, Option.some.injEq] at h
      subst h
      exact List.mem_cons_self _ _
    · have h1 : (t == k) = false := by simpa using hk
      simp only [List.lookup, h1] at h
      exact List.mem_cons_of_mem _ (ih h)

theorem opcode_isWord (t : Str) (info : InstructionInfo) (h : mnemonicsAt t = some info) :
    IsWord info.opcode := by
  obtain ⟨_, _, _, h4, h5⟩ := mnemonics_entries (t, info) (lookup_some_mem mnemonics t info h)
  exact ⟨h4, h5⟩

theorem specPad_isWord (a : Str) (h : specValidArgument a = true) : IsWord (specPad a) := by
  obtain ⟨hbin, hlen⟩ := (binaryUpTo8_iff a).2 h
  unfold specPad
  refine ⟨by simp; omega, ?_⟩
  intro c hc
  rcases List.mem_append.1 hc with h0 | h1
  · exact Or.inl (List.eq_of_mem_replicate h0)
  · exact hbin c h1

theorem isWord_append_singleton (bl : List Str) (w : Str) (hbl : ∀ x ∈ bl, IsWord x)
    (hw : IsWord w) : ∀ x ∈ bl ++ [w], IsWord x := by
  intro x hx
  rcases List.mem_append.1 hx with h | h
  · exact hbl x h
  · rw [List.mem_singleton.1 h]; exact hw

theorem specRun_words :
    ∀ (input : List Str) (st : SpecState) (lc : Nat) (bl P : List Str),
      (∀ w ∈ bl, IsWord w) → specRun st lc input bl = .ok P → ∀ w ∈ P, IsWord w := by
  intro input
  induction input with
  | nil =>
    intro st lc bl P hbl h
    cases st with
    | ExpectInstruction =>
      simp only [specRun, Except.ok.injEq] at h
      exact h ▸ hbl
    | ExpectArgument m n => simp [specRun] at h
  | cons raw rest ih =>
    intro st lc bl P hbl h
    cases hb : (specSanitize raw).isEmpty with
    | true =>
      exact ih st (lc + 1) bl P hbl (by cases st <;> simpa [specRun, hb] using h)
    | false =>
      cases st with
      | ExpectInstruction =>
        cases hs : spec_of (specSanitize raw) with
        | none => simp [specRun, hb, hs] at h
        | some v =>
          simp only [specRun, hb, hs, Bool.false_eq_true, ↓reduceIte] at h
          refine ih _ _ _ P (isWord_append_singleton bl v.1 hbl ?_) h
          rw [spec_of_eq] at hs
          cases hat : mnemonicsAt (specSanitize raw) with
          | none => simp [hat] at hs
          | some info =>
            simp only [hat, Option.map_some', Option.some.injEq] at hs
            rw [← hs]
            exact opcode_isWord _ info hat
      | ExpectArgument m n =>
        cases hv : specValidArgument (specSanitize raw) with
        | true =>
          simp only [specRun, hb, hv, Bool.false_eq_true, ↓reduceIte] at h
          exact ih _ _ _ P (isWord_append_singleton bl _ hbl (specPad_isWord _ hv)) h
        | false =>
          simp [specRun, hb, hv] at h

theorem emit_words (P : List Str) (hP : ∀ w ∈ P, IsWord w) : ∀ w ∈ emit P, IsWord w := by
  intro w hw
  rcases List.mem_append.1 hw with h | h
  · exact hP w h
  · rw [List.eq_of_mem_replicate h]
    exact ⟨by simp [WORD_SIZE], fun c hc => Or.inl (List.eq_of_mem_replicate hc)⟩

/-! ## Algebra of the two cleaning passes -/

theorem filter_takeWhile_comm (s : Str) :
    (s.takeWhile (fun x => x != ';')).filter (fun c => c != ' ' && c != '\t') =
      (s.filter (fun c => c != ' ' && c != '\t')).takeWhile (fun x => x != ';') := by
  induction s with
  | nil => rfl
  | cons x xs ih =>
    by_cases hx : x = ';'
    · subst hx
      simp [List.takeWhile, List.filter]
    · have hp : (x != ';') = true := by simpa using hx
      cases hq : (x != ' ' && x != '\t') with
      | true =>
        rw [List.takeWhile_cons, hp, List.filter_cons, hq]
        simp only [↓reduceIte]
        rw [List.filter_cons, hq]
        simp only [↓reduceIte]
        rw [List.takeWhile_cons, hp]
        simp only [↓reduceIte]
        rw [ih]
      | false =>
        rw [List.takeWhile_cons, hp, List.filter_cons, hq]
        simp only [↓reduceIte, Bool.false_eq_true]
        rw [List.filter_cons, hq]
        simp only [Bool.false_eq_true, ↓reduceIte]
        exact ih

theorem sanitize_clean (s : Str) :
    ∀ c ∈ removeSpaces (removeComments s), c ≠ ';' ∧ c ≠ ' ' ∧ c ≠ '\t' := by
  intro c hc
  rw [sanitize_eq_spec, specSanitize, List.mem_filter] at hc
  obtain ⟨htw, hf⟩ := hc
  have h1 := List.mem_takeWhile_imp htw
  simp only [bne_iff_ne, ne_eq, Bool.and_eq_true] at h1 hf
  exact ⟨h1, hf.1, hf.2⟩

theorem removeComments_of_no_semicolon (s : Str) (h : ∀ c ∈ s, c ≠ ';') :
    removeComments s = s := by
  rw [removeComments_eq_takeWhile, List.takeWhile_eq_self_iff]
  intro x hx
  simpa using h x hx

theorem removeSpaces_of_no_space (s : Str) (h : ∀ c ∈ s, c ≠ ' ' ∧ c ≠ '\t') :
    removeSpaces s = s := by
  rw [removeSpaces_eq_filter, List.filter_eq_self]
  intro x hx
  simpa using h x hx

theorem removeComments_clean (s : Str) : ∀ c ∈ removeComments s, c ≠ ';' := by
  intro c hc
  rw [removeComments_eq_takeWhile] at hc
  simpa using List.mem_takeWhile_imp hc

theorem sanitize_idem (s : Str) :
    removeSpaces (removeComments (removeSpaces (removeComments s))) =
      removeSpaces (removeComments s) := by
  have h := sanitize_clean s
  rw [removeComments_of_no_semicolon _ (fun c hc => (h c hc).1),
    removeSpaces_of_no_space _ (fun c hc => (h c hc).2)]

/-! ## Padding, values and the disjointness of mnemonics and literals -/

theorem binValue_zeros_append (k : Nat) (s : Str) :
    binValue (List.replicate k '0' ++ s) = binValue s := by
  unfold binValue
  rw [List.foldl_append]
  congr 1
  induction k with
  | zero => rfl
  | succ k ih =>
    rw [List.replicate_succ, List.foldl_cons]
    simpa using ih

theorem isBinary_iff (t : Str) :
    isBinary t = true ↔ t ≠ [] ∧ ∀ c ∈ t, c = '0' ∨ c = '1' := by
  rw [isBinary_eq]
  cases t with
  | nil => simp
  | cons x xs => simp [List.all_eq_true]

theorem mnemonics_not_binary : ∀ e ∈ mnemonics, isBinary e.1 = false := by
  decide

theorem isCommand_mem (t : Str) (h : isCommand t = true) :
    ∃ info, mnemonicsAt t = some info ∧ (t, info) ∈ mnemonics := by
  rw [isCommand_eq_isSome] at h
  cases hat : mnemonicsAt t with
  | none => simp [hat] at h
  | some info => exact ⟨info, rfl, lookup_some_mem mnemonics t info hat⟩

theorem isCommand_not_binary (t : Str) (h : isCommand t = true) : isBinary t = false := by
  obtain ⟨info, _, hmem⟩ := isCommand_mem t h
  exact mnemonics_not_binary (t, info) hmem

theorem isBinary_not_command (t : Str) (h : isBinary t = true) : isCommand t = false := by
  cases hc : isCommand t with
  | false => rfl
  | true => rw [isCommand_not_binary t hc] at h; exact absurd h (by decide)

theorem isCommand_ne_nil (t : Str) (h : isCommand t = true) : t ≠ [] := by
  intro h0
  subst h0
  exact absurd h (by decide)

theorem isCommand_not_binaryUpTo8 (t : Str) (h : isCommand t = true) : ¬ BinaryUpTo8 t := by
  intro hb
  have h1 : isBinary t = true := (isBinary_iff t).2 ⟨isCommand_ne_nil t h, hb.1⟩
  rw [isCommand_not_binary t h] at h1
  exact absurd h1 (by decide)

theorem assemble_INC (b : Str) (hlo : 1 ≤ b.length) (hhi : b.length ≤ 8)
    (hbin : ∀ c ∈ b, c = '0' ∨ c = '1') :
    assemble ["INC".toList, b] = some (.ok ["00000001".toList, padArgument b]) := by
  have hs := binary_sanitize b hbin
  have hne : removeSpaces (removeComments b) ≠ [] := by
    rw [hs]; intro h0; rw [h0] at hlo; simp at hlo
  have hgood : BinaryUpTo8 (removeSpaces (removeComments b)) := by
    rw [hs]; exact ⟨hbin, hhi⟩
  have hat : mnemonicsAt (removeSpaces (removeComments "INC".toList)) =
      some ⟨"00000001".toList, 1⟩ := rfl
  have hst : specAfterOpcode (removeSpaces (removeComments "INC".toList)) 1 =
      .ExpectArgument (removeSpaces (removeComments "INC".toList)) (0 + 1) := rfl
  rw [assemble_eq_spec, specAssemble, specRun_mnemonic 0 _ _ [b] [] hat]
  simp only
  rw [hst, specRun_argument _ _ _ _ _ _ hne, if_pos hgood, hs]
  rfl

/-! ## Blank lines, concatenation and relocation -/

theorem specRun_nil_counter (st : SpecState) (lc lc' : Nat) (bl : List Str) :
    specRun st lc [] bl = specRun st lc' [] bl := by
  cases st <;> rfl

theorem specRun_dropLine :
    ∀ (L : List Str) (st : SpecState) (lc lc' : Nat) (bl : List Str),
      (specRun st lc L bl).mapError dropLine =
        (specRun st lc' (withoutBlankLines L) bl).mapError dropLine := by
  intro L
  induction L with
  | nil =>
    intro st lc lc' bl
    rw [specRun_nil_counter st lc lc' bl]
    rfl
  | cons raw rest ih =>
    intro st lc lc' bl
    cases hb : (specSanitize raw).isEmpty with
    | true =>
      have hblank : removeSpaces (removeComments raw) = [] := by
        rw [sanitize_eq_spec]; exact (isEmpty_eq_true_iff _).1 hb
      have hw : withoutBlankLines (raw :: rest) = withoutBlankLines rest := by
        simp [withoutBlankLines, hblank]
      rw [hw, specRun_blank _ _ _ _ _ hblank]
      exact ih st (lc + 1) lc' bl
    | false =>
      have hw : withoutBlankLines (raw :: rest) = raw :: withoutBlankLines rest := by
        simp [withoutBlankLines, sanitize_eq_spec, hb]
      rw [hw]
      cases st with
      | ExpectInstruction =>
        cases hs : spec_of (specSanitize raw) with
        | none => simp [specRun, hb, hs, Except.mapError, dropLine]
        | some v =>
          simp only [specRun, hb, hs, Bool.false_eq_true, ↓reduceIte]
          exact ih _ _ _ _
      | ExpectArgument m n =>
        cases hv : specValidArgument (specSanitize raw) with
        | true =>
          simp only [specRun, hb, hv, Bool.false_eq_true, ↓reduceIte]
          exact ih _ _ _ _
        | false => simp [specRun, hb, hv, Except.mapError, dropLine]

theorem specRun_append_of_ok :
    ∀ (A : List Str) (st : SpecState) (lc : Nat) (bl P : List Str) (B : List Str),
      specRun st lc A bl = .ok P →
      specRun st lc (A ++ B) bl = specRun .ExpectInstruction (lc + A.length) B P := by
  intro A
  induction A with
  | nil =>
    intro st lc bl P B h
    cases st with
    | ExpectInstruction =>
      simp only [specRun, Except.ok.injEq] at h
      subst h
      rfl
    | ExpectArgument m n => simp [specRun] at h
  | cons raw rest ih =>
    intro st lc bl P B h
    have hlen : lc + (raw :: rest).length = lc + 1 + rest.length := by
      simp only [List.length_cons]; omega
    rw [hlen, List.cons_append]
    cases hb : (specSanitize raw).isEmpty with
    | true =>
      have hblank : removeSpaces (removeComments raw) = [] := by
        rw [sanitize_eq_spec]; exact (isEmpty_eq_true_iff _).1 hb
      rw [specRun_blank _ _ _ _ _ hblank] at h ⊢
      exact ih _ _ _ _ _ h
    | false =>
      cases st with
      | ExpectInstruction =>
        cases hs : spec_of (specSanitize raw) with
        | none => simp [specRun, hb, hs] at h
        | some v =>
          simp only [specRun, hb, hs, Bool.false_eq_true, ↓reduceIte] at h ⊢
          exact ih _ _ _ _ _ h
      | ExpectArgument m n =>
        cases hv : specValidArgument (specSanitize raw) with
        | true =>
          simp only [specRun, hb, hv, Bool.false_eq_true, ↓reduceIte] at h ⊢
          exact ih _ _ _ _ _ h
        | false => simp [specRun, hb, hv] at h

theorem specRun_relocate :
    ∀ (B : List Str) (st : SpecState) (lc k : Nat) (bl Q : List Str),
      specRun st (lc + k) B (Q ++ bl) = relocate k Q (specRun st lc B bl) := by
  intro B
  induction B with
  | nil =>
    intro st lc k bl Q
    cases st <;> rfl
  | cons raw rest ih =>
    intro st lc k bl Q
    have hk : lc + k + 1 = lc + 1 + k := by omega
    cases hb : (specSanitize raw).isEmpty with
    | true =>
      have hblank : removeSpaces (removeComments raw) = [] := by
        rw [sanitize_eq_spec]; exact (isEmpty_eq_true_iff _).1 hb
      rw [specRun_blank _ _ _ _ _ hblank, specRun_blank _ _ _ _ _ hblank, hk]
      exact ih _ _ _ _ _
    | false =>
      cases st with
      | ExpectInstruction =>
        cases hs : spec_of (specSanitize raw) with
        | none => simp [specRun, hb, hs, relocate, shiftLine, hk]
        | some v =>
          simp only [specRun, hb, hs, Bool.false_eq_true, ↓reduceIte, hk, List.append_assoc]
          exact ih _ _ _ _ _
      | ExpectArgument m n =>
        cases hv : specValidArgument (specSanitize raw) with
        | true =>
          simp only [specRun, hb, hv, Bool.false_eq_true, ↓reduceIte, hk, List.append_assoc]
          exact ih _ _ _ _ _
        | false => simp [specRun, hb, hv, relocate, shiftLine, hk]

theorem dropLine_shiftLine (k : Nat) (e : Err) : dropLine (shiftLine k e) = dropLine e := by
  cases e <;> rfl

theorem specAssemble_dropLine (L L' : List Str)
    (h : withoutBlankLines L = withoutBlankLines L') :
    (specAssemble L).mapError dropLine = (specAssemble L').mapError dropLine := by
  unfold specAssemble
  rw [specRun_dropLine L _ 0 0, h, ← specRun_dropLine L' _ 0 0]

theorem specAssemble_append (A B PA : List Str) (hA : specAssemble A = .ok PA) :
    specAssemble (A ++ B) = relocate A.length PA (specAssemble B) := by
  unfold specAssemble at hA ⊢
  rw [specRun_append_of_ok A _ 0 [] PA B hA]
  have h := specRun_relocate B .ExpectInstruction 0 A.length [] PA
  rw [List.append_nil] at h
  exact h

theorem withoutBlankLines_insert (A B : List Str) (blank : Str) (h : BlankLine blank) :
    withoutBlankLines (A ++ blank :: B) = withoutBlankLines (A ++ B) := by
  unfold BlankLine at h
  simp [withoutBlankLines, h]

/-! ## One word per non-blank line -/

theorem nonBlank_blank (raw : Str) (rest : List Str)
    (h : removeSpaces (removeComments raw) = []) : nonBlank (raw :: rest) = nonBlank rest := by
  simp [nonBlank, h]

theorem nonBlank_cons (raw : Str) (rest : List Str)
    (h : removeSpaces (removeComments raw) ≠ []) :
    nonBlank (raw :: rest) = removeSpaces (removeComments raw) :: nonBlank rest := by
  have hb : (removeSpaces (removeComments raw)).isEmpty = false := (isEmpty_eq_false_iff _).2 h
  simp [nonBlank, hb]

theorem specRun_consumed :
    ∀ (L : List Str) (m : Str) (n lc : Nat) (bl P : List Str),
      specRun (specAfterOpcode m n) lc L bl = .ok P →
      ∃ Q, P = bl ++ Q ∧ Consumed n (nonBlank L) Q := by
  intro L
  induction L with
  | nil =>
    intro m n lc bl P h
    cases n with
    | zero =>
      simp only [specAfterOpcode, Nat.lt_irrefl, ↓reduceIte, specRun, Except.ok.injEq] at h
      exact ⟨[], by simp [h], .done⟩
    | succ n => simp [specAfterOpcode, specRun] at h
  | cons raw rest ih =>
    intro m n lc bl P h
    by_cases hblank : removeSpaces (removeComments raw) = []
    · rw [specRun_blank _ _ _ _ _ hblank] at h
      rw [nonBlank_blank _ _ hblank]
      exact ih m n (lc + 1) bl P h
    · rw [nonBlank_cons _ _ hblank]
      cases n with
      | zero =>
        have hst : specAfterOpcode m 0 = .ExpectInstruction := by simp [specAfterOpcode]
        rw [hst] at h
        cases hat : mnemonicsAt (removeSpaces (removeComments raw)) with
        | none =>
          have hunk : isCommand (removeSpaces (removeComments raw)) = false := by
            rw [isCommand_eq_isSome, hat]; rfl
          rw [specRun_unknown _ _ _ _ hblank hunk] at h
          simp at h
        | some info =>
          rw [specRun_mnemonic _ _ _ _ _ hat] at h
          obtain ⟨Q, hQ, hc⟩ := ih _ _ _ _ _ h
          exact ⟨info.opcode :: Q, by simp [hQ], .mnemonic hat hc⟩
      | succ n =>
        have hst : specAfterOpcode m (n + 1) = .ExpectArgument m (n + 1) := by
          simp [specAfterOpcode]
        rw [hst, specRun_argument _ _ _ _ _ _ hblank] at h
        by_cases hgood : BinaryUpTo8 (removeSpaces (removeComments raw))
        · rw [if_pos hgood] at h
          obtain ⟨Q, hQ, hc⟩ := ih _ _ _ _ _ h
          exact ⟨padArgument (removeSpaces (removeComments raw)) :: Q, by simp [hQ],
            .argument hblank hgood hc⟩
        · rw [if_neg hgood] at h
          simp at h

theorem assemble_consumed (lines P : List Str) (h : assemble lines = some (.ok P)) :
    Consumed 0 (nonBlank lines) P := by
  have h := spec_of_assemble_ok lines P h
  rw [specAssemble] at h
  have hst : specAfterOpcode [] 0 = .ExpectInstruction := by simp [specAfterOpcode]
  rw [← hst] at h
  obtain ⟨Q, hQ, hc⟩ := specRun_consumed lines [] 0 0 [] P h
  rw [List.nil_append] at hQ
  rw [hQ]
  exact hc

theorem literal_not_command (line : Str) (hne : line ≠ []) (hb : BinaryUpTo8 line) :
    isCommand line = false :=
  isBinary_not_command line ((isBinary_iff line).2 ⟨hne, hb.1⟩)

theorem wordOf_literal (line : Str) (hne : line ≠ []) (hb : BinaryUpTo8 line) :
    wordOf line = padArgument line := by
  have h := literal_not_command line hne hb
  rw [isCommand_eq_isSome] at h
  cases hat : mnemonicsAt line with
  | none => simp [wordOf, hat]
  | some info => simp [hat] at h

theorem consumed_map_wordOf {n : Nat} {lines words : List Str}
    (h : Consumed n lines words) : words = lines.map wordOf ∧ words.length = lines.length := by
  induction h with
  | done => exact ⟨rfl, rfl⟩
  | mnemonic hat _ ih =>
    refine ⟨?_, by simp [ih.2]⟩
    rw [List.map_cons, ← ih.1]
    simp [wordOf, hat]
  | argument hne hb _ ih =>
    refine ⟨?_, by simp [ih.2]⟩
    rw [List.map_cons, ← ih.1, wordOf_literal _ hne hb]

theorem consumed_lines {n : Nat} {lines words : List Str} (h : Consumed n lines words) :
    ∀ line ∈ lines,
      (isCommand line = true ∧ ∃ info, mnemonicsAt line = some info ∧
        wordOf line = info.opcode) ∨
      (isCommand line = false ∧ isBinary line = true ∧ line.length ≤ 8 ∧
        wordOf line = padArgument line) := by
  induction h with
  | done => intro line hl; simp at hl
  | @mnemonic l info rest ws hat _ ih =>
    intro line hl
    rcases List.mem_cons.1 hl with rfl | hl
    · exact Or.inl ⟨by rw [isCommand_eq_isSome, hat]; rfl, info, hat, by simp [wordOf, hat]⟩
    · exact ih line hl
  | @argument k l rest ws hne hb _ ih =>
    intro line hl
    rcases List.mem_cons.1 hl with rfl | hl
    · exact Or.inr ⟨literal_not_command _ hne hb, (isBinary_iff _).2 ⟨hne, hb.1⟩, hb.2,
        wordOf_literal _ hne hb⟩
    · exact ih line hl

theorem nonBlank_eq_map (lines : List Str) :
    nonBlank lines =
      (withoutBlankLines lines).map (fun raw => removeSpaces (removeComments raw)) := by
  unfold nonBlank withoutBlankLines
  rw [List.filter_map]
  rfl

/-! ## The program determines the instructions -/

theorem opcodes_distinct :
    ∀ e1 ∈ mnemonics, ∀ e2 ∈ mnemonics, e1.2.opcode = e2.2.opcode → e1 = e2 := by
  decide

theorem opcode_determines_mnemonic (l1 l2 : Str) (i1 i2 : InstructionInfo)
    (h1 : mnemonicsAt l1 = some i1) (h2 : mnemonicsAt l2 = some i2)
    (h : i1.opcode = i2.opcode) : l1 = l2 ∧ i1 = i2 := by
  have := opcodes_distinct (l1, i1) (lookup_some_mem mnemonics l1 i1 h1) (l2, i2)
    (lookup_some_mem mnemonics l2 i2 h2) h
  simpa using this

theorem consumed_zero_inv {n : Nat} {lines words : List Str} (h : Consumed n lines words)
    (hn : n = 0) :
    (lines = [] ∧ words = []) ∨
    ∃ line info rest ws, lines = line :: rest ∧ words = info.opcode :: ws ∧
      mnemonicsAt line = some info ∧ Consumed info.num_arguments rest ws := by
  cases h with
  | done => exact Or.inl ⟨rfl, rfl⟩
  | mnemonic hat hc => exact Or.inr ⟨_, _, _, _, rfl, rfl, hat, hc⟩
  | argument _ _ _ => omega

theorem consumed_succ_inv {n : Nat} {lines words : List Str} (h : Consumed n lines words)
    (k : Nat) (hn : n = k + 1) :
    ∃ line rest ws, lines = line :: rest ∧ words = padArgument line :: ws ∧
      line ≠ [] ∧ BinaryUpTo8 line ∧ Consumed k rest ws := by
  cases h with
  | done => omega
  | mnemonic _ _ => omega
  | argument hne hb hc =>
    have hk : k = _ := (Nat.succ.inj hn).symm
    subst hk
    exact ⟨_, _, _, rfl, rfl, hne, hb, hc⟩

theorem leadingArgs_command (line : Str) (rest : List Str) (h : isCommand line = true) :
    leadingArgs (line :: rest) = [] := by
  simp [leadingArgs, List.takeWhile, h]

theorem leadingArgs_literal (line : Str) (rest : List Str) (h : isCommand line = false) :
    leadingArgs (line :: rest) = padArgument line :: leadingArgs rest := by
  simp [leadingArgs, List.takeWhile, h]

theorem instructionsOf_command (line : Str) (rest : List Str) (h : isCommand line = true) :
    instructionsOf (line :: rest) = (line, leadingArgs rest) :: instructionsOf rest := by
  simp [instructionsOf, h]

theorem instructionsOf_literal (line : Str) (rest : List Str) (h : isCommand line = false) :
    instructionsOf (line :: rest) = instructionsOf rest := by
  simp [instructionsOf, h]

theorem consumed_structure {n : Nat} {lines words : List Str} (h : Consumed n lines words) :
    (leadingArgs lines).length = n ∧
    (∀ ins ∈ instructionsOf lines, ∃ info, mnemonicsAt ins.1 = some info ∧
      ins.2.length = info.num_arguments) ∧
    words = leadingArgs lines ++ ((instructionsOf lines).map encodeInstruction).flatten := by
  induction h with
  | done => exact ⟨rfl, fun ins hi => by simp [instructionsOf] at hi, rfl⟩
  | @mnemonic l info rest ws hat _ ih =>
    have hc : isCommand l = true := by rw [isCommand_eq_isSome, hat]; rfl
    obtain ⟨h1, h2, h3⟩ := ih
    rw [leadingArgs_command l rest hc, instructionsOf_command l rest hc]
    refine ⟨rfl, ?_, ?_⟩
    · intro ins hi
      rcases List.mem_cons.1 hi with rfl | hi
      · exact ⟨info, hat, h1⟩
      · exact h2 ins hi
    · simp [encodeInstruction, wordOf, hat, h3]
  | @argument k l rest ws hne hb _ ih =>
    have hc := literal_not_command l hne hb
    obtain ⟨h1, h2, h3⟩ := ih
    rw [leadingArgs_literal l rest hc, instructionsOf_literal l rest hc]
    exact ⟨by simp [h1], h2, by simp [h3]⟩

theorem consumed_injective {n : Nat} {lines1 words : List Str}
    (h1 : Consumed n lines1 words) :
    ∀ lines2, Consumed n lines2 words →
      leadingArgs lines1 = leadingArgs lines2 ∧
      instructionsOf lines1 = instructionsOf lines2 ∧ lines1.length = lines2.length := by
  induction h1 with
  | done =>
    intro lines2 h2
    rcases consumed_zero_inv h2 rfl with ⟨hl, _⟩ | ⟨line, info, rest, ws, _, hw, _, _⟩
    · subst hl
      exact ⟨rfl, rfl, rfl⟩
    · simp at hw
  | @mnemonic l info rest ws hat _ ih =>
    intro lines2 h2
    rcases consumed_zero_inv h2 rfl with ⟨_, hw⟩ | ⟨l2, info2, rest2, ws2, hl, hw, hat2, hc2⟩
    · simp at hw
    · obtain ⟨hop, hws⟩ := List.cons.inj hw
      obtain ⟨hl12, hi12⟩ := opcode_determines_mnemonic l l2 info info2 hat hat2 hop
      subst hl hl12 hi12 hws
      have hc : isCommand l = true := by rw [isCommand_eq_isSome, hat]; rfl
      obtain ⟨i1, i2, i3⟩ := ih rest2 hc2
      rw [leadingArgs_command l rest hc, leadingArgs_command l rest2 hc,
        instructionsOf_command l rest hc, instructionsOf_command l rest2 hc, i1, i2]
      exact ⟨rfl, rfl, by simp [i3]⟩
  | @argument k l rest ws hne hb _ ih =>
    intro lines2 h2
    obtain ⟨l2, rest2, ws2, hl, hw, hne2, hb2, hc2⟩ := consumed_succ_inv h2 k rfl
    obtain ⟨hpad, hws⟩ := List.cons.inj hw
    subst hl hws
    have hc := literal_not_command l hne hb
    have hc' := literal_not_command l2 hne2 hb2
    obtain ⟨i1, i2, i3⟩ := ih rest2 hc2
    rw [leadingArgs_literal l rest hc, leadingArgs_literal l2 rest2 hc',
      instructionsOf_literal l rest hc, instructionsOf_literal l2 rest2 hc', i1, i2, hpad]
    exact ⟨rfl, rfl, by simp [i3]⟩

/-! ## Inputs of 2^31 lines and more -/

theorem mapError_wrapLine_of_short (st : SpecState) (lines bl : List Str)
    (h : lines.length < 2147483648) :
    (specRun st 0 lines bl).mapError wrapLine = specRun st 0 lines bl := by
  cases hs : specRun st 0 lines bl with
  | ok P => rfl
  | error e =>
    have hw := specRun_lineWithin lines st 0 bl e hs
    rw [Nat.zero_add] at hw
    simp only [Except.mapError]
    rw [wrapLine_of_lineWithin 0 lines.length e hw h]

theorem complete_blank_lines (n : Nat) : Complete (List.replicate n ([] : Str)) := by
  induction n with
  | zero => exact .nil
  | succ n ih =>
    rw [List.replicate_succ]
    exact .blank rfl ih

theorem specRun_blank_lines (n : Nat) :
    ∀ (lc : Nat) (bl : List Str),
      specRun .ExpectInstruction lc (List.replicate n ([] : Str)) bl = .ok bl := by
  induction n with
  | zero => intro lc bl; rfl
  | succ n ih =>
    intro lc bl
    rw [List.replicate_succ, specRun_blank _ _ ([] : Str) _ _ rfl]
    exact ih _ _

theorem assemble_blank_lines (n : Nat) :
    assemble (List.replicate n ([] : Str)) = some (.ok []) :=
  assemble_of_spec_ok _ _ (specRun_blank_lines n 0 [])

theorem wrap32_at_limit : wrap32 ((2147483648 : Nat) : Int) = -2147483648 := by
  decide

theorem assemble_FOO_after_blank_lines (n : Nat) :
    assemble (List.replicate n ([] : Str) ++ ["FOO".toList]) =
      some (.error (.UnknownCommand (wrap32 ((n + 1 : Nat) : Int)) "FOO".toList)) := by
  have h := assemble_unknown_command (List.replicate n ([] : Str)) [] "FOO".toList
    (complete_blank_lines n) (by decide) rfl
  rw [List.length_replicate] at h
  exact h

theorem specAssemble_FOO_after_blank_lines (n : Nat) :
    specAssemble (List.replicate n ([] : Str) ++ ["FOO".toList]) =
      .error (.UnknownCommand ((n + 1 : Nat) : Int) "FOO".toList) := by
  obtain ⟨P, hP⟩ := specRun_complete (complete_blank_lines n)
  rw [specAssemble, hP, List.length_replicate, Nat.zero_add]
  exact specRun_unknown n "FOO".toList [] _ (by decide) rfl

theorem dropLine_wrapLine (e : Err) : dropLine (wrapLine e) = dropLine e := by
  cases e <;> rfl

theorem wrapLine_shiftLine_wrapLine (k : Nat) (e : Err) :
    wrapLine (shiftLine k (wrapLine e)) = wrapLine (shiftLine k e) := by
  cases e <;> simp only [wrapLine, shiftLine, wrap32_add]

theorem lineWithin_shiftLine (lo hi k : Nat) (e : Err) (h : LineWithin lo hi e) :
    LineWithin (lo + k) (hi + k) (shiftLine k e) := by
  cases e <;> simp only [LineWithin, shiftLine] at h ⊢ <;>
    first | trivial | (push_cast; omega)

theorem assemble_append_error (A B PA : List Str) (e : Err)
    (hA : assemble A = some (.ok PA)) (hB : assemble B = some (.error e)) :
    assemble (A ++ B) = some (.error (wrapLine (shiftLine A.length e))) ∧
    ((A ++ B).length < 2147483648 →
      assemble (A ++ B) = some (.error (shiftLine A.length e))) := by
  have hA' := spec_of_assemble_ok A PA hA
  obtain ⟨e0, he0, hw⟩ := spec_of_assemble_error B e hB
  have happ : specAssemble (A ++ B) = .error (shiftLine A.length e0) := by
    rw [specAssemble_append A B PA hA', he0]
    rfl
  have hgen : assemble (A ++ B) = some (.error (wrapLine (shiftLine A.length e))) := by
    rw [assemble_of_spec_error _ _ happ, ← hw, wrapLine_shiftLine_wrapLine]
  refine ⟨hgen, ?_⟩
  intro hshort
  rw [List.length_append] at hshort
  have hin := specRun_lineWithin B _ 0 [] e0 he0
  rw [Nat.zero_add] at hin
  have he : e = e0 := by
    rw [← hw]
    exact wrapLine_of_lineWithin 0 B.length e0 hin (by omega)
  rw [hgen, he]
  have hin2 := lineWithin_shiftLine 0 B.length A.length e0 hin
  rw [wrapLine_of_lineWithin _ _ _ hin2 (by omega)]

/-! ## Claims -/

/-- C1, counterexample: on the input of 2147483647 blank lines followed by
`FOO` the driver reports `UnknownCommand` at line -2147483648, since its
`int lineCounter` has wrapped, while the machine of specification §4.3 reports
the 1-based line number 2147483648. -/
theorem C1_driver_differs_from_state_machine :
    assemble (List.replicate 2147483647 ([] : Str) ++ ["FOO".toList]) =
      some (.error (.UnknownCommand (-2147483648) "FOO".toList)) ∧
    specRun .ExpectInstruction 0 (List.replicate 2147483647 ([] : Str) ++ ["FOO".toList]) [] =
      .error (.UnknownCommand 2147483648 "FOO".toList) ∧
    assemble (List.replicate 2147483647 ([] : Str) ++ ["FOO".toList]) ≠
      some (specRun .ExpectInstruction 0
        (List.replicate 2147483647 ([] : Str) ++ ["FOO".toList]) []) := by
  have h1 := assemble_FOO_after_blank_lines 2147483647
  have h2 := specAssemble_FOO_after_blank_lines 2147483647
  rw [wrap32_at_limit] at h1
  rw [specAssemble] at h2
  refine ⟨h1, h2, ?_⟩
  rw [h1, h2]
  intro hc
  have hline := (Err.UnknownCommand.inj (Except.error.inj (Option.some.inj hc))).1
  exact absurd hline (by decide)

/-- C1: on every list of fewer than 2^31 input lines the nested-loop driver of
`main` returns (with any fuel above the number of lines, in particular the fuel
`assemble` supplies) and its result is exactly the result of the two-state
machine of specification §4.3 started in `ExpectInstruction` with an empty
program: the same program on success, and the same error kind, line number,
mnemonic and offending token on failure. On longer inputs the results agree
once the machine's line number is reduced to the range of the 32-bit `int`
that the driver counts in. -/
theorem C1_driver_refines_state_machine (lines : List Str) (fuel : Nat)
    (hfuel : lines.length < fuel) :
    (lines.length < 2147483648 →
      mainLoop fuel lines 0 [] = some (specRun .ExpectInstruction 0 lines []) ∧
      assemble lines = some (specRun .ExpectInstruction 0 lines [])) ∧
    mainLoop fuel lines 0 [] =
      some ((specRun .ExpectInstruction 0 lines []).mapError wrapLine) ∧
    assemble lines = some ((specRun .ExpectInstruction 0 lines []).mapError wrapLine) := by
  have h := mainLoop_eq_specRun fuel lines 0 [] hfuel
  rw [wrap32_zero] at h
  refine ⟨?_, h, assemble_eq_spec lines⟩
  intro hshort
  have hw := mapError_wrapLine_of_short .ExpectInstruction lines [] hshort
  rw [hw] at h
  exact ⟨h, assemble_eq_spec_of_short lines hshort⟩

/-- C1 on the program `ADD ; sum / 1 / (blank) / 10 / NOP`, with fuel 9: the
loops and the machine both stop at line 5 with `UnknownCommand`. -/
theorem C1_driver_refines_state_machine_witness :
    mainLoop 9 ["ADD ; sum".toList, "1".toList, "".toList, "10".toList, "NOP".toList] 0 [] =
      some (specRun .ExpectInstruction 0
        ["ADD ; sum".toList, "1".toList, "".toList, "10".toList, "NOP".toList] []) ∧
    specRun .ExpectInstruction 0
        ["ADD ; sum".toList, "1".toList, "".toList, "10".toList, "NOP".toList] [] =
      .error (.UnknownCommand 5 "NOP".toList) :=
  ⟨((C1_driver_refines_state_machine
      ["ADD ; sum".toList, "1".toList, "".toList, "10".toList, "NOP".toList] 9
      (by decide)).1 (by decide)).1, rfl⟩

/-- C2: for every mnemonic `m` of the catalog, with table entry `info`, and
every list of exactly `info.num_arguments` strings that are each 8 characters
over `0`/`1`, assembling the line `m` followed by those lines succeeds with a
program of exactly `1 + info.num_arguments` words: the opcode of `m` first,
then the given literals unchanged and in order. -/
theorem C2_single_instruction (m : Str) (info : InstructionInfo) (args : List Str)
    (hm : (m, info) ∈ mnemonics) (hlen : args.length = info.num_arguments)
    (hargs : ∀ a ∈ args, a.length = 8 ∧ ∀ c ∈ a, c = '0' ∨ c = '1') :
    assemble (m :: args) = some (.ok (info.opcode :: args)) ∧
    (info.opcode :: args).length = 1 + info.num_arguments := by
  obtain ⟨hs, hat, _, _, _⟩ := mnemonics_entries (m, info) hm
  obtain ⟨hlines, hwords⟩ := words_argLines args hargs
  refine ⟨?_, by simp [hlen]; omega⟩
  apply assemble_of_spec_ok
  rw [specAssemble]
  have hat' : mnemonicsAt (removeSpaces (removeComments m)) = some info := by
    rw [hs]; exact hat
  have hrun := specRun_argLines (removeSpaces (removeComments m)) hlines args.length
    (Nat.le_refl _) 1 [info.opcode] []
  rw [specRun_mnemonic 0 m info args [] hat', ← hlen]
  rw [List.append_nil] at hrun
  simp only [List.nil_append, Nat.zero_add]
  rw [hrun, hwords]
  simp [specAfterOpcode, specRun]

/-- C2 at `ADD` with the two literals `00000001` and `11111111`. -/
theorem C2_single_instruction_witness :
    assemble ["ADD".toList, "00000001".toList, "11111111".toList] =
      some (.ok ["00010000".toList, "00000001".toList, "11111111".toList]) ∧
    ["00010000".toList, "00000001".toList, "11111111".toList].length = 1 + 2 :=
  C2_single_instruction "ADD".toList ⟨"00010000".toList, 2⟩
    ["00000001".toList, "11111111".toList] (by decide) rfl (by decide)

/-- C3: for every string, `removeComments` followed by `removeSpaces` returns
exactly the characters that precede the first `;` (the whole string when there
is no `;`) with every space and tab deleted and the other characters kept in
order; the result contains no `;`, space or tab, and the empty string is mapped
to the empty string. The function is total. -/
theorem C3_sanitizer (s : Str) :
    removeSpaces (removeComments s) =
      (s.takeWhile (fun c => c != ';')).filter (fun c => c != ' ' && c != '\t') ∧
    (';' ∉ s → removeSpaces (removeComments s) = s.filter (fun c => c != ' ' && c != '\t')) ∧
    (∀ pre post : Str, s = pre ++ ';' :: post → ';' ∉ pre →
      removeSpaces (removeComments s) = pre.filter (fun c => c != ' ' && c != '\t')) ∧
    (∀ c ∈ removeSpaces (removeComments s), c ≠ ';' ∧ c ≠ ' ' ∧ c ≠ '\t') ∧
    removeSpaces (removeComments ([] : Str)) = [] := by
  have hmain := sanitize_eq_spec s
  unfold specSanitize at hmain
  refine ⟨hmain, ?_, ?_, ?_, rfl⟩
  · intro hno
    rw [hmain]
    congr 1
    rw [List.takeWhile_eq_self_iff]
    intro x hx
    simp only [bne_iff_ne, ne_eq]
    intro hxc
    exact hno (hxc ▸ hx)
  · intro pre post hs hpre
    rw [hmain, hs, takeWhile_before_first pre post ';' hpre]
  · intro c hc
    rw [hmain, List.mem_filter] at hc
    obtain ⟨htw, hf⟩ := hc
    have h1 := List.mem_takeWhile_imp htw
    simp only [bne_iff_ne, ne_eq, Bool.and_eq_true] at h1 hf
    exact ⟨h1, hf.1, hf.2⟩

/-- C3 at the line ` A D ;D ; x` with a tab after the first space. -/
theorem C3_sanitizer_witness :
    removeSpaces (removeComments [' ', '\t', 'A', ' ', 'D', ' ', ';', 'D', ' ', ';', ' ', 'x']) =
      [' ', '\t', 'A', ' ', 'D', ' '].filter (fun c => c != ' ' && c != '\t') :=
  (C3_sanitizer [' ', '\t', 'A', ' ', 'D', ' ', ';', 'D', ' ', ';', ' ', 'x']).2.2.1
    [' ', '\t', 'A', ' ', 'D', ' '] ['D', ' ', ';', ' ', 'x'] rfl (by decide)

/-- C4: the catalog matches the table of the specification: `isCommand t`
holds exactly for the 16 mnemonics (case-sensitively), and for each of them
`mnemonics.at` returns the opcode and argument count of the table. -/
theorem C4_catalog_matches_table (t : Str) :
    (isCommand t = true ↔
      t ∈ ["INC".toList, "DEC".toList, "NOT".toList, "JMP".toList, "ADD".toList,
        "SUB".toList, "MUL".toList, "DIV".toList, "MOD".toList, "AND".toList, "OR".toList,
        "XOR".toList, "NAND".toList, "NOR".toList, "XNOR".toList, "COMP".toList]) ∧
    mnemonicsAt "INC".toList = some ⟨"00000001".toList, 1⟩ ∧
    mnemonicsAt "DEC".toList = some ⟨"00000010".toList, 1⟩ ∧
    mnemonicsAt "NOT".toList = some ⟨"00000011".toList, 1⟩ ∧
    mnemonicsAt "JMP".toList = some ⟨"00000100".toList, 1⟩ ∧
    mnemonicsAt "ADD".toList = some ⟨"00010000".toList, 2⟩ ∧
    mnemonicsAt "SUB".toList = some ⟨"00100000".toList, 2⟩ ∧
    mnemonicsAt "MUL".toList = some ⟨"00110000".toList, 2⟩ ∧
    mnemonicsAt "DIV".toList = some ⟨"01000000".toList, 2⟩ ∧
    mnemonicsAt "MOD".toList = some ⟨"01010000".toList, 2⟩ ∧
    mnemonicsAt "AND".toList = some ⟨"01100000".toList, 2⟩ ∧
    mnemonicsAt "OR".toList = some ⟨"01110000".toList, 2⟩ ∧
    mnemonicsAt "XOR".toList = some ⟨"10000000".toList, 2⟩ ∧
    mnemonicsAt "NAND".toList = some ⟨"10010000".toList, 2⟩ ∧
    mnemonicsAt "NOR".toList = some ⟨"10100000".toList, 2⟩ ∧
    mnemonicsAt "XNOR".toList = some ⟨"10110000".toList, 2⟩ ∧
    mnemonicsAt "COMP".toList = some ⟨"11000000".toList, 2⟩ ∧
    isCommand "inc".toList = false ∧ isCommand "Add".toList = false := by
  refine ⟨?_, rfl, rfl, rfl, rfl, rfl, rfl, rfl, rfl, rfl, rfl, rfl, rfl, rfl, rfl, rfl, rfl,
    rfl, rfl⟩
  rw [isCommand_eq_isSome, mnemonicsAt, lookup_isSome_iff_mem_keys]
  exact Iff.rfl

/-- C6, counterexample: on the input of 2147483647 blank lines followed by
`FOO`, line 2147483648 holds the unknown token, and the run reports
`UnknownCommand` with the line number -2147483648, the value of the wrapped
`int lineCounter`. -/
theorem C6_line_number_wraps :
    Complete (List.replicate 2147483647 ([] : Str)) ∧
    assemble (List.replicate 2147483647 ([] : Str) ++ "FOO".toList :: []) =
      some (.error (.UnknownCommand (-2147483648) "FOO".toList)) ∧
    assemble (List.replicate 2147483647 ([] : Str) ++ "FOO".toList :: []) ≠
      some (.error (.UnknownCommand
        (((List.replicate 2147483647 ([] : Str)).length + 1 : Nat) : Int) "FOO".toList)) := by
  have h := assemble_FOO_after_blank_lines 2147483647
  rw [wrap32_at_limit] at h
  refine ⟨complete_blank_lines _, h, ?_⟩
  rw [h, List.length_replicate]
  intro hc
  have hline := (Err.UnknownCommand.inj (Except.error.inj (Option.some.inj hc))).1
  exact absurd hline (by decide)

/-- C6: if the lines before line `k` are only blank lines and complete valid
instructions, `k < 2^31`, and line `k` cleans to a non-empty token `t` that is
not a catalog mnemonic, the run fails with `UnknownCommand` (exit code 3)
reporting exactly the line number `k` and the token `t`, whatever follows. A
program whose lines 1 and 2 are blank and whose line 3 is `FOO` fails with exit
code 3, line 3, token `FOO`. -/
theorem C6_unknown_command (pre post : List Str) (raw t : Str) (hpre : Complete pre)
    (ht : removeSpaces (removeComments raw) = t) (hne : t ≠ [])
    (hunk : isCommand t = false) (hk : pre.length + 1 < 2147483648) :
    assemble (pre ++ raw :: post) =
      some (.error (.UnknownCommand ((pre.length + 1 : Nat) : Int) t)) ∧
    run (pre ++ raw :: post) = some ⟨3, []⟩ ∧
    assemble ["".toList, "".toList, "FOO".toList] =
      some (.error (.UnknownCommand 3 "FOO".toList)) ∧
    run ["".toList, "".toList, "FOO".toList] = some ⟨3, []⟩ := by
  subst ht
  have h := assemble_unknown_command pre post raw hpre hne hunk
  rw [wrap32_cast_of_lt _ hk] at h
  exact ⟨h, run_of_assemble_error _ _ h, rfl, rfl⟩

/-- C6 on the program `INC ; first / 101 / (blank) / F O O ;bad / ADD`. -/
theorem C6_unknown_command_witness :
    assemble ["INC ; first".toList, "  101".toList, "".toList, " F O O ;bad".toList,
        "ADD".toList] = some (.error (.UnknownCommand 4 "FOO".toList)) ∧
    run ["INC ; first".toList, "  101".toList, "".toList, " F O O ;bad".toList,
        "ADD".toList] = some ⟨3, []⟩ :=
  have h := C6_unknown_command ["INC ; first".toList, "  101".toList, "".toList]
    ["ADD".toList] " F O O ;bad".toList "FOO".toList
    (@Complete.instr "INC ; first".toList ⟨"00000001".toList, 1⟩ ["  101".toList]
      ["".toList] rfl (.arg (by decide) .nil) (.blank (by decide) .nil))
    rfl (by decide) rfl (by decide)
  ⟨h.1, h.2.1⟩

/-- C7: if the input consists of blank lines and complete valid instructions,
then a line holding a catalog mnemonic `m`, then fewer than `arity(m)` valid
argument lines and otherwise only blank lines, the run fails with
`UnexpectedEndOfInput` (exit code 4) naming `m`. Every catalog arity is at least
1, so a program that consists of a mnemonic alone, such as `ADD`, yields exit
code 4, also after complete instructions `pre`. -/
theorem C7_unexpected_end_of_input (pre tail : List Str) (raw m : Str)
    (info : InstructionInfo) (j : Nat) (hpre : Complete pre)
    (hm : removeSpaces (removeComments raw) = m) (hinfo : mnemonicsAt m = some info)
    (htail : ArgLines j tail) (hj : j < info.num_arguments) :
    assemble (pre ++ raw :: tail) = some (.error (.UnexpectedEndOfInput m)) ∧
    run (pre ++ raw :: tail) = some ⟨4, []⟩ ∧
    assemble (pre ++ [raw]) = some (.error (.UnexpectedEndOfInput m)) ∧
    run (pre ++ [raw]) = some ⟨4, []⟩ ∧
    (∀ e ∈ mnemonics, 1 ≤ e.2.num_arguments ∧
      assemble [e.1] = some (.error (.UnexpectedEndOfInput e.1)) ∧
      run [e.1] = some ⟨4, []⟩) ∧
    run ["ADD".toList] = some ⟨4, []⟩ := by
  subst hm
  have h := assemble_unexpected_end pre tail raw info j hpre hinfo htail hj
  have h0 := assemble_unexpected_end pre [] raw info 0 hpre hinfo .nil (by omega)
  refine ⟨h, run_of_assemble_error _ _ h, h0, run_of_assemble_error _ _ h0, ?_, rfl⟩
  intro e he
  obtain ⟨hs, hat, harity, _, _⟩ := mnemonics_entries e he
  have hat' : mnemonicsAt (removeSpaces (removeComments e.1)) = some e.2 := by
    rw [hs]; exact hat
  have h1 := assemble_unexpected_end [] [] e.1 e.2 0 .nil hat' .nil (by omega)
  rw [hs] at h1
  exact ⟨harity, h1, run_of_assemble_error _ _ h1⟩

/-- C7 on the program `NOT / 1 / SUB ; two arguments wanted / (blank) / 11 / ; end`. -/
theorem C7_unexpected_end_of_input_witness :
    assemble ["NOT".toList, "1".toList, "SUB ; two arguments wanted".toList, "".toList,
        "11".toList, "; end".toList] =
      some (.error (.UnexpectedEndOfInput "SUB".toList)) ∧
    run ["NOT".toList, "1".toList, "SUB ; two arguments wanted".toList, "".toList,
        "11".toList, "; end".toList] = some ⟨4, []⟩ :=
  have h := C7_unexpected_end_of_input ["NOT".toList, "1".toList]
    ["".toList, "11".toList, "; end".toList] "SUB ; two arguments wanted".toList
    "SUB".toList ⟨"00100000".toList, 2⟩ 1
    (@Complete.instr "NOT".toList ⟨"00000011".toList, 1⟩ ["1".toList] [] rfl
      (.arg (by decide) .nil) .nil)
    rfl rfl (.blank (by decide) (.arg (by decide) (.blank (by decide) .nil))) (by decide)
  ⟨h.1, h.2.1⟩

/-- C8: for every program `P` of `n` words the emitter writes exactly
`max n 128` lines: the first `n` are the words of `P` unchanged and in order,
the remaining `128 - n` (none when `n ≥ 128`) are all `00000000`; when
`n ≥ 128` the output is `P` itself, nothing added and nothing truncated. -/
theorem C8_emitter (P : List Str) :
    (emit P).length = max P.length 128 ∧
    (emit P).take P.length = P ∧
    (emit P).drop P.length = List.replicate (128 - P.length) "00000000".toList ∧
    (128 ≤ P.length → emit P = P) := by
  unfold emit MIN_BINARY_LINES WORD_SIZE
  refine ⟨?_, ?_, ?_, ?_⟩
  · simp only [List.length_append, List.length_replicate]
    omega
  · simp
  · simp
  · intro h
    have h0 : 128 - P.length = 0 := by omega
    simp [h0]

/-- C8 on a program of 130 words. -/
theorem C8_emitter_witness :
    emit (List.replicate 130 "10101010".toList) = List.replicate 130 "10101010".toList :=
  (C8_emitter (List.replicate 130 "10101010".toList)).2.2.2 (by simp)

/-- C9: for every string `b` of length 1 to 8 over `0`/`1`, `padArgument b`
has length exactly 8, equals `b` when `b` already has length 8, otherwise equals
`8 - |b|` characters `0` followed by `b`, and padding is idempotent; in
particular `padArgument "1" = "00000001"`. -/
theorem C9_padArgument (b : Str) (hlo : 1 ≤ b.length) (hhi : b.length ≤ 8)
    (_hbin : ∀ c ∈ b, c = '0' ∨ c = '1') :
    (padArgument b).length = 8 ∧
    (b.length = 8 → padArgument b = b) ∧
    (b.length < 8 → padArgument b = List.replicate (8 - b.length) '0' ++ b) ∧
    padArgument (padArgument b) = padArgument b ∧
    padArgument "1".toList = "00000001".toList := by
  have hlen : (padArgument b).length = 8 := by
    rw [padArgument_eq_spec]
    simp only [specPad, List.length_append, List.length_replicate]
    omega
  refine ⟨hlen, padArgument_of_length_eq b, ?_, padArgument_of_length_eq _ hlen, rfl⟩
  intro _
  rw [padArgument_eq_spec]
  rfl

/-- C9 at the literal `101`. -/
theorem C9_padArgument_witness :
    (padArgument "101".toList).length = 8 ∧
    padArgument "101".toList = List.replicate (8 - "101".toList.length) '0' ++ "101".toList :=
  have h := C9_padArgument "101".toList (by decide) (by decide) (by decide)
  ⟨h.1, h.2.2.1 (by decide)⟩

/-- C10: for every input on which assembly succeeds, every word of the
accumulated program, and therefore every line of the emitted output including
the padding lines, is a string of exactly 8 characters, each `0` or `1`. -/
theorem C10_words_are_eight_bits (lines P : List Str)
    (h : assemble lines = some (.ok P)) :
    (∀ w ∈ P, w.length = 8 ∧ ∀ c ∈ w, c = '0' ∨ c = '1') ∧
    run lines = some ⟨0, emit P⟩ ∧
    (∀ w ∈ emit P, w.length = 8 ∧ ∀ c ∈ w, c = '0' ∨ c = '1') := by
  have hP : ∀ w ∈ P, IsWord w := by
    have hs := spec_of_assemble_ok lines P h
    rw [specAssemble] at hs
    exact specRun_words lines _ 0 [] P (fun w hw => by simp at hw) hs
  exact ⟨hP, by simp [run, h], emit_words P hP⟩

/-- C10 on the program `JMP / 11 / XOR / 1 / 0`. -/
theorem C10_words_are_eight_bits_witness :
    (∀ w ∈ ["00000100".toList, "00000011".toList, "10000000".toList, "00000001".toList,
        "00000000".toList], w.length = 8 ∧ ∀ c ∈ w, c = '0' ∨ c = '1') ∧
    (∀ w ∈ emit ["00000100".toList, "00000011".toList, "10000000".toList,
        "00000001".toList, "00000000".toList], w.length = 8 ∧ ∀ c ∈ w, c = '0' ∨ c = '1') :=
  have h := C10_words_are_eight_bits
    ["JMP".toList, "11".toList, "XOR".toList, "1".toList, "0".toList]
    ["00000100".toList, "00000011".toList, "10000000".toList, "00000001".toList,
      "00000000".toList] rfl
  ⟨h.1, h.2.2⟩

/-- C11: blank lines are ignored in every state. If `L` and `L'` differ only by
inserted or deleted blank lines, at any positions (they agree once every blank
line is deleted), then assembling `L'` succeeds with a program exactly when
assembling `L` succeeds with that program, one fails exactly when the other
does, and when both fail the errors agree in kind, mnemonic and offending token
(only the line number may differ). Inserting one blank line anywhere is such a
change. -/
theorem C11_blank_lines_ignored (L L' : List Str)
    (h : withoutBlankLines L = withoutBlankLines L') :
    (∀ P, assemble L = some (.ok P) ↔ assemble L' = some (.ok P)) ∧
    ((∃ e, assemble L = some (.error e)) ↔ (∃ e', assemble L' = some (.error e'))) ∧
    (∀ e e', assemble L = some (.error e) → assemble L' = some (.error e') →
      dropLine e = dropLine e') ∧
    (∀ (A B : List Str) (blank : Str), BlankLine blank →
      withoutBlankLines (A ++ blank :: B) = withoutBlankLines (A ++ B)) := by
  have key := specAssemble_dropLine L L' h
  have hok : ∀ (X Y : List Str),
      (specAssemble X).mapError dropLine = (specAssemble Y).mapError dropLine →
      ∀ P, assemble X = some (.ok P) → assemble Y = some (.ok P) := by
    intro X Y hXY P hX
    have hs := spec_of_assemble_ok X P hX
    rw [hs] at hXY
    cases hY : specAssemble Y with
    | ok Q =>
      rw [hY] at hXY
      simp only [Except.mapError, Except.ok.injEq] at hXY
      exact assemble_of_spec_ok Y P (by rw [hY, hXY])
    | error e => rw [hY] at hXY; simp [Except.mapError] at hXY
  have herr : ∀ (X Y : List Str),
      (specAssemble X).mapError dropLine = (specAssemble Y).mapError dropLine →
      ∀ e, assemble X = some (.error e) →
      ∃ e', assemble Y = some (.error e') ∧ dropLine e = dropLine e' := by
    intro X Y hXY e hX
    obtain ⟨e0, he0, hw⟩ := spec_of_assemble_error X e hX
    rw [he0] at hXY
    cases hY : specAssemble Y with
    | ok Q => rw [hY] at hXY; simp [Except.mapError] at hXY
    | error e1 =>
      rw [hY] at hXY
      simp only [Except.mapError, Except.error.injEq] at hXY
      exact ⟨wrapLine e1, assemble_of_spec_error Y e1 hY, by
        rw [← hw, dropLine_wrapLine, dropLine_wrapLine, hXY]⟩
  refine ⟨?_, ?_, ?_, withoutBlankLines_insert⟩
  · intro P
    exact ⟨hok L L' key P, hok L' L key.symm P⟩
  · constructor
    · rintro ⟨e, he⟩
      obtain ⟨e', he', _⟩ := herr L L' key e he
      exact ⟨e', he'⟩
    · rintro ⟨e, he⟩
      obtain ⟨e', he', _⟩ := herr L' L key.symm e he
      exact ⟨e', he'⟩
  · intro e e' he he'
    obtain ⟨e1, he1, hd⟩ := herr L L' key e he
    rw [he'] at he1
    have : e' = e1 := Except.error.inj (Option.some.inj he1)
    rw [this]
    exact hd

/-- C11 on `SUB / 1 / 10` against the same program with blank, whitespace-only
and comment-only lines inserted before, between and after its lines. -/
theorem C11_blank_lines_ignored_witness :
    assemble ["".toList, "SUB".toList, "; first operand".toList, "1".toList, " ".toList,
        "10".toList, "".toList] =
      some (.ok ["00100000".toList, "00000001".toList, "00000010".toList]) :=
  ((C11_blank_lines_ignored ["SUB".toList, "1".toList, "10".toList]
    ["".toList, "SUB".toList, "; first operand".toList, "1".toList, " ".toList,
      "10".toList, "".toList] rfl).1
    ["00100000".toList, "00000001".toList, "00000010".toList]).1 rfl

/-- C12: end to end, for every binary literal `b` of length 1 to 8 the input
made of the two lines `INC` and `b` succeeds (exit code 0) and the output has
exactly 128 lines: `00000001`, then `padArgument b`, then 126 lines `00000000`.
The input `INC / 00000001` gives `00000001`, `00000001` and 126 lines of
`00000000`. -/
theorem C12_end_to_end_INC (b : Str) (hlo : 1 ≤ b.length) (hhi : b.length ≤ 8)
    (hbin : ∀ c ∈ b, c = '0' ∨ c = '1') :
    run ["INC".toList, b] =
      some ⟨0, "00000001".toList :: padArgument b ::
        List.replicate 126 "00000000".toList⟩ ∧
    ("00000001".toList :: padArgument b ::
        List.replicate 126 "00000000".toList).length = 128 ∧
    run ["INC".toList, "00000001".toList] =
      some ⟨0, "00000001".toList :: "00000001".toList ::
        List.replicate 126 "00000000".toList⟩ := by
  have h := assemble_INC b hlo hhi hbin
  refine ⟨?_, by simp, rfl⟩
  simp only [run, h]
  rfl

/-- C12 at the literal `1`. -/
theorem C12_end_to_end_INC_witness :
    run ["INC".toList, "1".toList] =
      some ⟨0, "00000001".toList :: padArgument "1".toList ::
        List.replicate 126 "00000000".toList⟩ :=
  (C12_end_to_end_INC "1".toList (by decide) (by decide) (by decide)).1

/-- C13: on every input for which the run fails (with `UnknownCommand`,
`UnexpectedEndOfInput` or `InvalidArgument`), the exit status is the non-zero
code of the error and no word is written to the output, however many words were
already appended to the program before the failing line; a run that writes
anything has translated the whole input successfully and writes `emit` of the
complete program. -/
theorem C13_no_output_on_failure (lines : List Str) (r : RunResult)
    (hr : run lines = some r) :
    (∀ e, assemble lines = some (.error e) →
      r.output = [] ∧ r.status = exitCode e ∧ r.status ≠ 0) ∧
    (r.output ≠ [] → ∃ P, assemble lines = some (.ok P) ∧ r.output = emit P ∧ r.status = 0) ∧
    run ["ADD".toList, "1".toList, "10".toList, "INC".toList, "11".toList, "FOO".toList] =
      some ⟨3, []⟩ ∧
    run ["ADD".toList, "1".toList, "10".toList, "INC".toList, "2".toList] = some ⟨5, []⟩ ∧
    run ["ADD".toList, "1".toList, "10".toList, "INC".toList] = some ⟨4, []⟩ := by
  refine ⟨?_, ?_, rfl, rfl, rfl⟩
  · intro e he
    rw [run_of_assemble_error lines e he, Option.some.injEq] at hr
    subst hr
    refine ⟨rfl, rfl, ?_⟩
    cases e <;> simp [exitCode]
  · intro hout
    cases ha : assemble lines with
    | none => simp [run, ha] at hr
    | some res =>
      cases res with
      | error e =>
        rw [run_of_assemble_error lines e ha, Option.some.injEq] at hr
        subst hr
        exact absurd rfl hout
      | ok P =>
        simp only [run, ha, Option.some.injEq] at hr
        subst hr
        exact ⟨P, rfl, rfl, rfl⟩

/-- C13 on the program `ADD / 1 / 10 / INC / 11 / FOO`: five words were
appended before line 6 fails, and nothing is written. -/
theorem C13_no_output_on_failure_witness :
    assemble ["ADD".toList, "1".toList, "10".toList, "INC".toList, "11".toList,
        "FOO".toList] = some (.error (.UnknownCommand 6 "FOO".toList)) ∧
    run ["ADD".toList, "1".toList, "10".toList, "INC".toList, "11".toList,
        "FOO".toList] = some ⟨3, []⟩ ∧
    (⟨3, []⟩ : RunResult).output = [] ∧ (⟨3, []⟩ : RunResult).status ≠ 0 :=
  have h := (C13_no_output_on_failure
    ["ADD".toList, "1".toList, "10".toList, "INC".toList, "11".toList, "FOO".toList]
    ⟨3, []⟩ rfl).1 (.UnknownCommand 6 "FOO".toList) rfl
  ⟨rfl, rfl, h.1, h.2.2⟩

/-- C14: each successful step appends exactly one word. For every input on
which assembly succeeds, the program has exactly as many words as the input has
lines that are non-empty after cleaning, and the i-th word is derived from the
i-th such line alone (it is `wordOf` of that line): the opcode of the line when
the line is consumed as a mnemonic, `padArgument` of the line when it is
consumed as an argument. -/
theorem C14_one_word_per_line (lines P : List Str) (h : assemble lines = some (.ok P)) :
    P.length = (withoutBlankLines lines).length ∧
    nonBlank lines =
      (withoutBlankLines lines).map (fun raw => removeSpaces (removeComments raw)) ∧
    P = (nonBlank lines).map wordOf ∧
    Consumed 0 (nonBlank lines) P ∧
    (∀ line ∈ nonBlank lines,
      (isCommand line = true ∧ ∃ info, mnemonicsAt line = some info ∧
        wordOf line = info.opcode) ∨
      (isCommand line = false ∧ isBinary line = true ∧ line.length ≤ 8 ∧
        wordOf line = padArgument line)) := by
  have hc := assemble_consumed lines P h
  obtain ⟨hmap, hlen⟩ := consumed_map_wordOf hc
  refine ⟨?_, nonBlank_eq_map lines, hmap, hc, consumed_lines hc⟩
  rw [hlen, nonBlank_eq_map, List.length_map]

/-- C14 on the program `AND ; mask / (blank) / 1 1 / 101 / INC / 1`. -/
theorem C14_one_word_per_line_witness :
    ["01100000".toList, "00000011".toList, "00000101".toList, "00000001".toList,
        "00000001".toList] =
      (nonBlank ["AND ; mask".toList, "".toList, "1 1".toList, "101".toList, "INC".toList,
        "1".toList]).map wordOf ∧
    nonBlank ["AND ; mask".toList, "".toList, "1 1".toList, "101".toList, "INC".toList,
        "1".toList] =
      ["AND".toList, "11".toList, "101".toList, "INC".toList, "1".toList] :=
  ⟨(C14_one_word_per_line
      ["AND ; mask".toList, "".toList, "1 1".toList, "101".toList, "INC".toList, "1".toList]
      ["01100000".toList, "00000011".toList, "00000101".toList, "00000001".toList,
        "00000001".toList] rfl).2.2.1, rfl⟩

/-- C15: comment stripping and whitespace stripping are order-independent: for
every string, `removeSpaces` applied after `removeComments` gives the same
result as `removeComments` applied after `removeSpaces`. -/
theorem C15_cleaning_order_independent (s : Str) :
    removeSpaces (removeComments s) = removeComments (removeSpaces s) := by
  rw [removeComments_eq_takeWhile (removeSpaces s), removeSpaces_eq_filter s,
    removeSpaces_eq_filter, removeComments_eq_takeWhile]
  exact filter_takeWhile_comm s

/-- C16: comment stripping is idempotent, `removeComments (removeComments s) =
removeComments s` for every string `s`, and the full cleaning (`removeComments`
then `removeSpaces`) applied to its own output returns that output unchanged. -/
theorem C16_cleaning_idempotent (s : Str) :
    removeComments (removeComments s) = removeComments s ∧
    removeSpaces (removeComments (removeSpaces (removeComments s))) =
      removeSpaces (removeComments s) :=
  ⟨removeComments_of_no_semicolon _ (removeComments_clean s), sanitize_idem s⟩

/-- C17: no string is both a known mnemonic and an acceptable argument
literal: `isCommand t` and `isBinary t` are never both true. Consequently a
binary literal met while an instruction is expected always fails with
`UnknownCommand`, and a catalog mnemonic met while an argument is expected
always fails with `InvalidArgument` (it is never started as a new
instruction). The line number of the diagnostic is the value of the 32-bit
line counter. -/
theorem C17_mnemonics_and_literals_disjoint (t : Str) :
    ¬ (isCommand t = true ∧ isBinary t = true) ∧
    (isBinary t = true → ∀ (pre post : List Str) (raw : Str), Complete pre →
      removeSpaces (removeComments raw) = t →
      assemble (pre ++ raw :: post) =
        some (.error (.UnknownCommand (wrap32 ((pre.length + 1 : Nat) : Int)) t))) ∧
    (isCommand t = true →
      ∀ (pre given tail : List Str) (mline raw : Str) (info : InstructionInfo) (j : Nat),
      Complete pre → mnemonicsAt (removeSpaces (removeComments mline)) = some info →
      ArgLines j given → j < info.num_arguments →
      removeSpaces (removeComments raw) = t →
      assemble (pre ++ mline :: (given ++ raw :: tail)) =
        some (.error (.InvalidArgument
          (wrap32 ((pre.length + 1 + given.length + 1 : Nat) : Int))
          (removeSpaces (removeComments mline)) t))) ∧
    (isCommand t = true → ∀ (n : Nat) (lc : Int) (m raw : Str) (tail bl : List Str),
      removeSpaces (removeComments raw) = t →
      argLoop (n + 1) m (raw :: tail) lc bl =
        .error (.InvalidArgument (wrap32 (lc + 1)) m t)) := by
  refine ⟨?_, ?_, ?_, ?_⟩
  · rintro ⟨hc, hb⟩
    rw [isCommand_not_binary t hc] at hb
    exact absurd hb (by decide)
  · intro hb pre post raw hpre hraw
    subst hraw
    exact assemble_unknown_command pre post raw hpre ((isBinary_iff _).1 hb).1
      (isBinary_not_command _ hb)
  · intro hc pre given tail mline raw info j hpre hinfo hgiven hj hraw
    subst hraw
    exact assemble_invalid_argument pre given tail mline raw info j hpre hinfo hgiven hj
      (isCommand_ne_nil _ hc) (isCommand_not_binaryUpTo8 _ hc)
  · intro hc n lc m raw tail bl hraw
    subst hraw
    have hne := isCommand_ne_nil _ hc
    have hb : (removeSpaces (removeComments raw)).isEmpty = false :=
      (isEmpty_eq_false_iff _).2 hne
    have hnext := nextArg_skip_blanks [] raw tail (fun b hb => by simp at hb) hne lc
    rw [List.nil_append] at hnext
    have h1 : lc + (((([] : List Str).length + 1 : Nat)) : Int) = lc + 1 := by
      simp
    rw [h1] at hnext
    rw [argLoop, hnext]
    simp [isCommand_not_binary _ hc]

/-- C17 at the mnemonic `ADD`, met as the second argument of `SUB` on line 3. -/
theorem C17_mnemonics_and_literals_disjoint_witness :
    assemble ["SUB".toList, "1".toList, "ADD".toList, "0".toList] =
      some (.error (.InvalidArgument 3 "SUB".toList "ADD".toList)) :=
  (C17_mnemonics_and_literals_disjoint "ADD".toList).2.2.1 rfl [] ["1".toList]
    ["0".toList] "SUB".toList "ADD".toList ⟨"00100000".toList, 2⟩ 1 .nil rfl
    (.arg (by decide) .nil) (by decide) rfl

/-- C18: padding never truncates and preserves the numeric value: for every
string `s`, `padArgument s` is `8 - |s|` (none when `|s| ≥ 8`) characters `0`
followed by `s`, so `s` is a suffix of the result and the result has length
`max |s| 8`; hence for every `s` over `0`/`1` the unsigned integer denoted in
base 2 by `padArgument s` equals the one denoted by `s`. -/
theorem C18_padding_preserves_value (s : Str) :
    padArgument s = List.replicate (8 - s.length) '0' ++ s ∧
    s <:+ padArgument s ∧
    (padArgument s).length = max s.length 8 ∧
    ((∀ c ∈ s, c = '0' ∨ c = '1') → binValue (padArgument s) = binValue s) ∧
    binValue "101".toList = 5 ∧ binValue (padArgument "101".toList) = 5 := by
  have h : padArgument s = List.replicate (8 - s.length) '0' ++ s := padArgument_eq_spec s
  refine ⟨h, ?_, ?_, ?_, rfl, rfl⟩
  · rw [h]
    exact List.suffix_append _ _
  · rw [h]
    simp only [List.length_append, List.length_replicate]
    omega
  · intro _
    rw [h]
    exact binValue_zeros_append _ s

/-- C18 at the literal `110`, of value 6. -/
theorem C18_padding_preserves_value_witness :
    binValue (padArgument "110".toList) = binValue "110".toList ∧
    binValue "110".toList = 6 :=
  ⟨(C18_padding_preserves_value "110".toList).2.2.2.1 (by decide), rfl⟩

/-- C19, counterexample: for `A` made of 2147483647 blank lines and `B` the
single line `FOO`, `A` assembles to the empty program, `B` fails with
`UnknownCommand` at line 1, and `A` followed by `B` fails at the reported line
-2147483648, not at line 1 + 2147483647. -/
theorem C19_shifted_line_wraps :
    assemble (List.replicate 2147483647 ([] : Str)) = some (.ok []) ∧
    assemble ["FOO".toList] = some (.error (.UnknownCommand 1 "FOO".toList)) ∧
    assemble (List.replicate 2147483647 ([] : Str) ++ ["FOO".toList]) =
      some (.error (.UnknownCommand (-2147483648) "FOO".toList)) ∧
    assemble (List.replicate 2147483647 ([] : Str) ++ ["FOO".toList]) ≠
      some (.error (shiftLine (List.replicate 2147483647 ([] : Str)).length
        (.UnknownCommand 1 "FOO".toList))) := by
  have h := assemble_FOO_after_blank_lines 2147483647
  rw [wrap32_at_limit] at h
  refine ⟨assemble_blank_lines _, rfl, h, ?_⟩
  rw [h, List.length_replicate]
  intro hc
  have hline := (Err.UnknownCommand.inj (Except.error.inj (Option.some.inj hc))).1
  exact absurd hline (by decide)

/-- C19: assembly is compositional over concatenation. If assembling `A`
succeeds with program `PA`, then: if assembling `B` succeeds with `PB`,
assembling `A` followed by `B` succeeds with `PA ++ PB`; and if assembling `B`
fails with an error, `A` followed by `B` fails with the same error (same kind,
mnemonic and token), with its line number increased by the number of lines of
`A` when `A` followed by `B` has fewer than `2^31` lines, and in general with
that sum reduced to the range of the 32-bit line counter. -/
theorem C19_assembly_compositional (A B PA : List Str)
    (hA : assemble A = some (.ok PA)) :
    (∀ PB, assemble B = some (.ok PB) → assemble (A ++ B) = some (.ok (PA ++ PB))) ∧
    (∀ e, assemble B = some (.error e) →
      ((A ++ B).length < 2147483648 →
        assemble (A ++ B) = some (.error (shiftLine A.length e))) ∧
      assemble (A ++ B) = some (.error (wrapLine (shiftLine A.length e))) ∧
      dropLine (wrapLine (shiftLine A.length e)) = dropLine e) ∧
    shiftLine 2 (.InvalidArgument 2 "INC".toList "x".toList) =
      .InvalidArgument 4 "INC".toList "x".toList := by
  refine ⟨?_, ?_, rfl⟩
  · intro PB hB
    have hA' := spec_of_assemble_ok A PA hA
    have hB' := spec_of_assemble_ok B PB hB
    apply assemble_of_spec_ok
    rw [specAssemble_append A B PA hA', hB']
    rfl
  · intro e hB
    obtain ⟨hgen, hshort⟩ := assemble_append_error A B PA e hA hB
    exact ⟨hshort, hgen, by rw [dropLine_wrapLine, dropLine_shiftLine]⟩

/-- C19 on `A = NOT / 1` and `B = INC / x`: `B` alone fails at line 2, `A`
followed by `B` fails the same way at line 4. -/
theorem C19_assembly_compositional_witness :
    assemble ["NOT".toList, "1".toList, "INC".toList, "x".toList] =
      some (.error (.InvalidArgument 4 "INC".toList "x".toList)) ∧
    assemble ["NOT".toList, "1".toList, "JMP".toList, "11".toList] =
      some (.ok ["00000011".toList, "00000001".toList, "00000100".toList,
        "00000011".toList]) :=
  have h := C19_assembly_compositional ["NOT".toList, "1".toList]
  ⟨((h ["INC".toList, "x".toList] ["00000011".toList, "00000001".toList] rfl).2.1
      (.InvalidArgument 2 "INC".toList "x".toList) rfl).1 (by decide),
   (h ["JMP".toList, "11".toList] ["00000011".toList, "00000001".toList] rfl).1
      ["00000100".toList, "00000011".toList] rfl⟩

/-- C20: the encoding is unambiguously decodable. The opcodes of the catalog
are pairwise distinct, and any two inputs that both assemble successfully to
the same program contain the same sequence of instructions: the same
mnemonics in the same order, each with the same number of arguments (the
number the table asks for), and with equal arguments after zero-padding to 8
characters; the program is exactly the encoding of that sequence. -/
theorem C20_unambiguous_decoding (L1 L2 P : List Str)
    (h1 : assemble L1 = some (.ok P)) (h2 : assemble L2 = some (.ok P)) :
    (∀ e1 ∈ mnemonics, ∀ e2 ∈ mnemonics, e1.2.opcode = e2.2.opcode → e1 = e2) ∧
    instructionsOf (nonBlank L1) = instructionsOf (nonBlank L2) ∧
    (nonBlank L1).length = (nonBlank L2).length ∧
    (∀ ins ∈ instructionsOf (nonBlank L1), ∃ info, mnemonicsAt ins.1 = some info ∧
      ins.2.length = info.num_arguments) ∧
    P = ((instructionsOf (nonBlank L1)).map encodeInstruction).flatten := by
  have c1 := assemble_consumed L1 P h1
  have c2 := assemble_consumed L2 P h2
  obtain ⟨_, hi, hl⟩ := consumed_injective c1 _ c2
  obtain ⟨s1, s2, s3⟩ := consumed_structure c1
  refine ⟨opcodes_distinct, hi, hl, s2, ?_⟩
  rw [List.length_eq_zero.1 s1, List.nil_append] at s3
  exact s3

/-- C20 on two spellings of `ADD 1 10 / INC 11`: different padding of the
arguments, comments and blank lines, same program and same instructions. -/
theorem C20_unambiguous_decoding_witness :
    instructionsOf (nonBlank ["ADD".toList, "1".toList, "10".toList, "INC".toList,
        "11".toList]) =
      instructionsOf (nonBlank ["ADD ; sum".toList, "".toList, "00000001".toList,
        "010".toList, " INC".toList, "0011".toList]) ∧
    instructionsOf (nonBlank ["ADD".toList, "1".toList, "10".toList, "INC".toList,
        "11".toList]) =
      [("ADD".toList, ["00000001".toList, "00000010".toList]),
        ("INC".toList, ["00000011".toList])] :=
  ⟨(C20_unambiguous_decoding
      ["ADD".toList, "1".toList, "10".toList, "INC".toList, "11".toList]
      ["ADD ; sum".toList, "".toList, "00000001".toList, "010".toList, " INC".toList,
        "0011".toList]
      ["00010000".toList, "00000001".toList, "00000010".toList, "00000001".toList,
        "00000011".toList] rfl rfl).2.1, rfl⟩

end Assembler
